/-
Verification of the peg/leg grammar-to-recognizer compiler core
(Go sources: the `peg` package).

Shallow embedding conventions:
  * Go byte strings are `List Nat` with every element < 256.
  * `characterClass` is the 32-byte bitmap `[32]uint8`, embedded as a
    `List Nat` of length 32 whose entries are kept below 256.
  * Go `uint8` arithmetic is `Nat` arithmetic kept in range by
    construction (bitwise ops `&&& ||| ^^^ <<< >>>` on `Nat`).
  * Failure (Go panics / impossible states) is `Option`.
-/
import Mathlib

set_option maxRecDepth 10000

/-! ## Character classes (`type characterClass [32]uint8`) -/

/-- The 32-byte bitmap `[32]uint8` representing a set of byte values. -/
abbrev characterClass : Type := List Nat

namespace characterClass

/-- `new(characterClass)`: the all-zero bitmap. -/
def mk : characterClass := List.replicate 32 0

/-- Well-formed bitmap: 32 cells, each a byte value. -/
def wf (c : characterClass) : Prop :=
  c.length = 32 ∧ ∀ b ∈ c, b < 256

/-- `func (c *characterClass) add(character uint8)`:
`c[character>>3] |= (1 << (character & 7))`. -/
def add (c : characterClass) (ch : Nat) : characterClass :=
  c.set (ch >>> 3) ((c.getD (ch >>> 3) 0) ||| (1 <<< (ch &&& 7)))

/-- `func (c *characterClass) has(character uint8) bool`:
`c[character>>3]&(1<<(character&7)) != 0`. -/
def has (c : characterClass) (ch : Nat) : Bool :=
  (c.getD (ch >>> 3) 0) &&& (1 <<< (ch &&& 7)) != 0

/-- `func (c *characterClass) complement()`: cellwise `uint8` bitwise-not. -/
def complement (c : characterClass) : characterClass :=
  c.map (fun b => b ^^^ 255)

/-- `func (c *characterClass) union(class *characterClass)`. -/
def union (c d : characterClass) : characterClass :=
  c.zipWith (· ||| ·) d

/-- `func (c *characterClass) intersection(class *characterClass)`. -/
def intersection (c d : characterClass) : characterClass :=
  c.zipWith (· &&& ·) d

/-- `func (c *characterClass) len() (length int)`: popcount by probing
all 256 byte values with `has`. -/
def len (c : characterClass) : Nat :=
  ((List.range 256).filter (fun ch => c.has ch)).length

/-- The escaping helper inside `characterClass.String`.  The default arm
is Go's `fmt.Sprintf("%c", c)`, which renders the code point `c` in
UTF-8: one byte below 128, two bytes for 128..255. -/
def escape (ch : Nat) : List Nat :=
  if ch = 7 then [92, 97]        -- \a
  else if ch = 8 then [92, 98]   -- \b
  else if ch = 12 then [92, 102] -- \f
  else if ch = 10 then [92, 110] -- \n
  else if ch = 13 then [92, 114] -- \r
  else if ch = 9 then [92, 116]  -- \t
  else if ch = 11 then [92, 118] -- \v
  else if ch = 39 then [92, 39]  -- \'
  else if ch = 34 then [92, 34]  -- \"
  else if ch = 91 then [92, 91]  -- \[
  else if ch = 93 then [92, 93]  -- \]
  else if ch = 92 then [92, 92]  -- \\
  else if ch = 45 then [92, 45]  -- \-
  else if ch < 128 then [ch]
  else [192 ||| (ch >>> 6), 128 ||| (ch &&& 63)]

/-- The loop of `characterClass.String`, iterating `character` from
0 to 255 with the run-length counter `l`; `n` counts the remaining
iterations (`character = 256 - n`).  At `n = 0` the trailing
`if l >= 2 { class += "-" + escape(255) }` fires. -/
def stringAux (c : characterClass) : Nat → Nat → List Nat
  | l, 0 => if l ≥ 2 then 45 :: escape 255 else []
  | l, n + 1 =>
    let ch := 255 - n
    if c.has ch then
      (if l = 0 then escape ch else []) ++ stringAux c (l + 1) n
    else
      (if l = 2 then escape (ch - 1)
       else if l > 2 then 45 :: escape (ch - 1)
       else []) ++ stringAux c 0 n

/-- `func (c *characterClass) String() (class string)`, producing the
class-literal text as bytes (named `goString` because `String` is the
Lean string type). -/
def goString (c : characterClass) : List Nat :=
  stringAux c 0 256

end characterClass

/-! ## The class-literal parser inside `Tree.AddClass` -/

/-- The escape decoding switch inside `Tree.AddClass`
(`case 'a': last = '\a'` and so on; any other byte is kept as-is,
which is what makes `\' \" \[ \] \\ \-` work). -/
def decodeEscape (x : Nat) : Nat :=
  if x = 97 then 7        -- a → bel
  else if x = 98 then 8   -- b → bs
  else if x = 102 then 12 -- f → ff
  else if x = 110 then 10 -- n → nl
  else if x = 114 then 13 -- r → cr
  else if x = 116 then 9  -- t → ht
  else if x = 118 then 11 -- v → vt
  else x

/-- `for j := last; j <= text[i]; j++ { c.add(j) }`. -/
def addRange (c : characterClass) (lo hi : Nat) : characterClass :=
  (List.range' lo (hi + 1 - lo)).foldl characterClass.add c

/-- The scanning loop of `Tree.AddClass`
(`for i := 0; i < (len(text) - 1); i++ { ... }`).  The loop body runs
only while at least two bytes remain (`i < len-1`); the `-`-range and
`\`-escape arms consume two bytes.  The `Option Nat` argument is the
`last`/`hasLast` pair. -/
def parseLoop (c : characterClass) (h : Option Nat) : List Nat → characterClass
  | [] => c
  | [_] => c
  | x :: y :: rest =>
    match h with
    | some lastv =>
      if x = 45 then parseLoop (addRange c lastv y) none rest
      else if x = 92 then
        let d := decodeEscape y
        parseLoop (c.add d) (some d) rest
      else parseLoop (c.add x) (some x) (y :: rest)
    | none =>
      if x = 92 then
        let d := decodeEscape y
        parseLoop (c.add d) (some d) rest
      else parseLoop (c.add x) (some x) (y :: rest)

/-- The class-literal parser inside `Tree.AddClass`: optional leading
`^` complements, the scanning loop resolves escapes and ranges, and
`c.add(text[len(text)-1])` adds the raw final byte unconditionally.
Indexing an empty text panics in Go, hence `Option`. -/
def parseClassText (text : List Nat) : Option characterClass :=
  match text with
  | [] => none
  | t0 :: rest =>
    let inverse := t0 = 94
    let body := if t0 = 94 then rest else t0 :: rest
    match body.getLast? with
    | none => none
    | some lastb =>
      let c := (parseLoop characterClass.mk none body).add lastb
      some (if inverse then c.complement else c)

/-! ### Bit-level semantics of the bitmap operations -/

namespace characterClass

theorem has_eq_testBit (c : characterClass) (x : Nat) :
    c.has x = (c.getD (x >>> 3) 0).testBit (x &&& 7) := by
  unfold has
  rw [Nat.one_shiftLeft, Nat.and_two_pow]
  cases hb : (c.getD (x >>> 3) 0).testBit (x &&& 7)
  · simp [hb, bne]
  · have hpos : 0 < 2 ^ (x &&& 7) := Nat.pos_pow_of_pos _ (by omega)
    simp [hb, bne, Nat.ne_of_gt hpos]

theorem length_add (c : characterClass) (x : Nat) :
    (c.add x).length = c.length := List.length_set ..

theorem getD_set_self (c : List Nat) (i : Nat) (h : i < c.length) (v : Nat) :
    (c.set i v).getD i 0 = v := by
  rw [List.getD_eq_getElem?_getD, List.getElem?_set]
  simp [h]

theorem getD_set_ne (c : List Nat) {i j : Nat} (h : i ≠ j) (v : Nat) :
    (c.set i v).getD j 0 = c.getD j 0 := by
  rw [List.getD_eq_getElem?_getD, List.getElem?_set, List.getD_eq_getElem?_getD]
  simp [h]

theorem getD_lt_of_wf (c : List Nat) (hval : ∀ b ∈ c, b < 256) (i : Nat) :
    c.getD i 0 < 256 := by
  rw [List.getD_eq_getElem?_getD]
  rcases Nat.lt_or_ge i c.length with h | h
  · rw [List.getElem?_eq_getElem h]
    exact hval _ (List.getElem_mem h)
  · rw [List.getElem?_eq_none (by omega)]
    norm_num

theorem shiftRight3_lt (x : Nat) (hx : x < 256) : x >>> 3 < 32 := by
  rw [Nat.shiftRight_eq_div_pow]
  omega

theorem and7_lt (x : Nat) : x &&& 7 < 8 := by
  have : (7 : Nat) = 2 ^ 3 - 1 := by norm_num
  rw [this, Nat.and_pow_two_sub_one_eq_mod]
  omega

theorem byte_split (x : Nat) : x = 8 * (x >>> 3) + (x &&& 7) := by
  have h7 : x &&& 7 = x % 8 := by
    have : (7 : Nat) = 2 ^ 3 - 1 := by norm_num
    rw [this, Nat.and_pow_two_sub_one_eq_mod]
  rw [Nat.shiftRight_eq_div_pow, h7]
  omega

/-- Effect of `add` on `has`: exactly the byte `x` is switched on. -/
theorem has_add (c : characterClass) (hlen : c.length = 32)
    (x y : Nat) (hx : x < 256) :
    (c.add x).has y = (c.has y || x == y) := by
  have hix : x >>> 3 < 32 := shiftRight3_lt x hx
  rw [has_eq_testBit, has_eq_testBit]
  unfold add
  by_cases hidx : x >>> 3 = y >>> 3
  · rw [← hidx, getD_set_self c _ (by omega)]
    rw [Nat.one_shiftLeft, Nat.testBit_lor, Nat.testBit_two_pow]
    by_cases hbit : x &&& 7 = y &&& 7
    · have hxy : x = y := by
        have h1 := byte_split x
        have h2 := byte_split y
        omega
      simp [hbit, hxy]
    · have hxy : x ≠ y := by
        intro h; exact hbit (by rw [h])
      simp [hbit, hxy]
  · rw [getD_set_ne c hidx]
    have hxy : x ≠ y := fun h => hidx (by rw [h])
    simp [hxy]

theorem mk_has (x : Nat) : characterClass.mk.has x = false := by
  have h : (characterClass.mk : List Nat).getD (x >>> 3) 0 = 0 := by
    unfold mk
    rw [List.getD_eq_getElem?_getD, List.getElem?_replicate]
    by_cases h : x >>> 3 < 32 <;> simp [h]
  rw [has_eq_testBit, h]
  simp

/-- Well-formedness is preserved by `add`. -/
theorem wf_add (c : characterClass) (hwf : c.wf) (x : Nat) : (c.add x).wf := by
  obtain ⟨hlen, hval⟩ := hwf
  constructor
  · rw [length_add, hlen]
  · intro b hb
    unfold add at hb
    rcases List.mem_or_eq_of_mem_set hb with h | h
    · exact hval b h
    · subst h
      have h1 : c.getD (x >>> 3) 0 < 256 := getD_lt_of_wf c hval _
      have h2 : 1 <<< (x &&& 7) < 256 := by
        have := and7_lt x
        rw [Nat.one_shiftLeft]
        calc 2 ^ (x &&& 7) ≤ 2 ^ 7 := Nat.pow_le_pow_right (by norm_num) (by omega)
        _ < 256 := by norm_num
      have h256 : (256 : Nat) = 2 ^ 8 := by norm_num
      exact h256 ▸ Nat.or_lt_two_pow (h256 ▸ h1) (h256 ▸ h2)

/-- Bytes ≥ 256 are never members of a 32-cell bitmap. -/
theorem has_hi (c : characterClass) (hlen : c.length = 32)
    (x : Nat) (hx : 256 ≤ x) : c.has x = false := by
  have : c.getD (x >>> 3) 0 = 0 := by
    rw [List.getD_eq_getElem?_getD, List.getElem?_eq_none]
    · rfl
    · rw [hlen, Nat.shiftRight_eq_div_pow]
      omega
  rw [has_eq_testBit, this]
  simp

/-- Two well-formed bitmaps with the same members are equal cell by cell:
this is the "bit-for-bit" bridge. -/
theorem eq_of_has_eq (c d : characterClass) (hc : c.wf) (hd : d.wf)
    (h : ∀ x, x < 256 → c.has x = d.has x) : c = d := by
  obtain ⟨hcl, hcv⟩ := hc
  obtain ⟨hdl, hdv⟩ := hd
  apply List.ext_getElem (by omega)
  intro k hk1 hk2
  apply Nat.eq_of_testBit_eq
  intro j
  rcases Nat.lt_or_ge j 8 with hj | hj
  · have hx : 8 * k + j < 256 := by
      rw [hcl] at hk1
      omega
    have hsplit1 : (8 * k + j) >>> 3 = k := by
      rw [Nat.shiftRight_eq_div_pow]
      omega
    have hsplit2 : (8 * k + j) &&& 7 = j := by
      have : (7 : Nat) = 2 ^ 3 - 1 := by norm_num
      rw [this, Nat.and_pow_two_sub_one_eq_mod]
      omega
    have := h (8 * k + j) hx
    rw [has_eq_testBit, has_eq_testBit, hsplit1, hsplit2] at this
    rw [List.getD_eq_getElem?_getD, List.getD_eq_getElem?_getD,
      List.getElem?_eq_getElem hk1, List.getElem?_eq_getElem hk2] at this
    exact this
  · have hpow : (256 : Nat) ≤ 2 ^ j :=
      le_trans (by norm_num) (Nat.pow_le_pow_right (by norm_num) hj)
    have h1 : c.get ⟨k, hk1⟩ < 2 ^ j :=
      lt_of_lt_of_le (hcv _ (List.get_mem c k hk1)) hpow
    have h2 : d.get ⟨k, hk2⟩ < 2 ^ j :=
      lt_of_lt_of_le (hdv _ (List.get_mem d k hk2)) hpow
    show (c.get ⟨k, hk1⟩).testBit j = (d.get ⟨k, hk2⟩).testBit j
    rw [Nat.testBit_eq_false_of_lt h1, Nat.testBit_eq_false_of_lt h2]

end characterClass

/-! ### Run decomposition of the printed class literal

`characterClass.String` emits one "atom" per maximal run `[a, b]` of
consecutive members: `escape a` when the run opens, and on closing
nothing (`b = a`), `escape b` (`b = a + 1`), or `"-" ++ escape b`
(`b ≥ a + 2`).  The following definitions name that decomposition so
the printer loop can be related to the class-literal parser. -/

namespace characterClass

/-- The bytes the printer escapes with a backslash. -/
def escapedBytes : List Nat := [7, 8, 9, 10, 11, 12, 13, 34, 39, 45, 91, 92, 93]

/-- Second byte of the printed escape pair. -/
def escChar (ch : Nat) : Nat :=
  if ch = 7 then 97
  else if ch = 8 then 98
  else if ch = 12 then 102
  else if ch = 10 then 110
  else if ch = 13 then 114
  else if ch = 9 then 116
  else if ch = 11 then 118
  else ch

theorem escape_low : ∀ a, a < 128 →
    escape a = if a ∈ escapedBytes then [92, escChar a] else [a] := by decide

theorem decode_escChar : ∀ a, a < 128 → a ∈ escapedBytes →
    decodeEscape (escChar a) = a := by decide

theorem not_escaped_facts : ∀ a, a < 128 → a ∉ escapedBytes →
    a ≠ 45 ∧ a ≠ 92 := by decide

/-- Close of the atom for run `[a, b]` (everything after `escape a`). -/
def atomTail (a b : Nat) : List Nat :=
  if b = a then [] else if b = a + 1 then escape b else 45 :: escape b

/-- The full printed atom for run `[a, b]`. -/
def atom (p : Nat × Nat) : List Nat := escape p.1 ++ atomTail p.1 p.2

/-- Printed text of a run list whose first run has already been opened
with `escape a`. -/
def tailAtoms (a : Nat) : List (Nat × Nat) → List Nat
  | [] => []
  | (_, b) :: rest => atomTail a b ++ rest.flatMap atom

/-- Maximal runs of members from position `256 - n` upward; `cur = some a`
means a run that started at `a` is still open. -/
def runsA (c : characterClass) : Nat → Option Nat → List (Nat × Nat)
  | 0, none => []
  | 0, some a => [(a, 255)]
  | n + 1, none =>
    let i := 255 - n
    if c.has i then runsA c n (some i) else runsA c n none
  | n + 1, some a =>
    let i := 255 - n
    if c.has i then runsA c n (some a) else (a, i - 1) :: runsA c n none

/-- The maximal runs of a class. -/
def runs (c : characterClass) : List (Nat × Nat) := runsA c 256 none

theorem escape_ne_nil (a : Nat) : escape a ≠ [] := by
  by_cases ha : a < 128
  · rw [escape_low a ha]
    split <;> simp
  · unfold escape
    repeat rw [if_neg (by omega)]
    simp

theorem atom_ne_nil (p : Nat × Nat) : atom p ≠ [] := by
  unfold atom
  intro h
  exact escape_ne_nil p.1 (List.append_eq_nil.mp h).1

theorem runsA_some_shape (c : characterClass) :
    ∀ n a, ∃ b rest, runsA c n (some a) = (a, b) :: rest := by
  intro n
  induction n with
  | zero => exact fun a => ⟨255, [], rfl⟩
  | succ n ih =>
    intro a
    show (∃ b rest,
      (if c.has (255 - n) = true then runsA c n (some a)
       else (a, 255 - n - 1) :: runsA c n none) = (a, b) :: rest)
    by_cases h : c.has (255 - n) = true
    · rw [if_pos h]
      exact ih a
    · rw [if_neg h]
      exact ⟨255 - n - 1, runsA c n none, rfl⟩

theorem flatMap_atom_some (c : characterClass) (n a : Nat) :
    (runsA c n (some a)).flatMap atom
      = escape a ++ tailAtoms a (runsA c n (some a)) := by
  obtain ⟨b, rest, h⟩ := runsA_some_shape c n a
  rw [h]
  simp [tailAtoms, atom]

/-- The printer loop emits exactly the atoms of the run decomposition
(under the restriction that all members are below 128, which keeps the
trailing `escape(255)` clause unreachable). -/
theorem stringAux_eq_atoms (c : characterClass)
    (hlow : ∀ x, c.has x = true → x < 128) :
    ∀ n, n ≤ 256 →
      (stringAux c 0 n = (runsA c n none).flatMap atom) ∧
      (∀ a, a < 128 → a + 1 ≤ 256 - n →
        stringAux c (256 - n - a) n = tailAtoms a (runsA c n (some a))) := by
  intro n
  induction n with
  | zero =>
    intro _
    refine ⟨by simp [stringAux, runsA], ?_⟩
    intro a ha hle
    show (if 256 - 0 - a ≥ 2 then 45 :: escape 255 else []) = tailAtoms a [(a, 255)]
    rw [if_pos (by omega)]
    show 45 :: escape 255 = atomTail a 255 ++ ([] : List (Nat × Nat)).flatMap atom
    rw [atomTail, if_neg (by omega), if_neg (by omega)]
    simp
  | succ n ih =>
    intro hn
    have hn' : n ≤ 256 := by omega
    constructor
    · show ((if c.has (255 - n) = true then
          (if (0:Nat) = 0 then escape (255 - n) else []) ++ stringAux c (0 + 1) n
        else
          (if (0:Nat) = 2 then escape (255 - n - 1)
           else if (0:Nat) > 2 then 45 :: escape (255 - n - 1)
           else []) ++ stringAux c 0 n)
        = (if c.has (255 - n) = true then runsA c n (some (255 - n))
           else runsA c n none).flatMap atom)
      by_cases h : c.has (255 - n) = true
      · rw [if_pos h, if_pos h, if_pos rfl, flatMap_atom_some]
        have hi : 255 - n < 128 := hlow _ h
        have harith : (0 : Nat) + 1 = 256 - n - (255 - n) := by omega
        rw [harith, (ih hn').2 (255 - n) hi (by omega)]
      · rw [if_neg h, if_neg h, if_neg (by omega), if_neg (by omega)]
        rw [(ih hn').1]
        simp
    · intro a ha hle
      show ((if c.has (255 - n) = true then
          (if 256 - (n + 1) - a = 0 then escape (255 - n) else [])
            ++ stringAux c (256 - (n + 1) - a + 1) n
        else
          (if 256 - (n + 1) - a = 2 then escape (255 - n - 1)
           else if 256 - (n + 1) - a > 2 then 45 :: escape (255 - n - 1)
           else []) ++ stringAux c 0 n)
        = tailAtoms a (if c.has (255 - n) = true then runsA c n (some a)
            else (a, 255 - n - 1) :: runsA c n none))
      have hl1 : 1 ≤ 256 - (n + 1) - a := by omega
      by_cases h : c.has (255 - n) = true
      · rw [if_pos h, if_pos h, if_neg (by omega)]
        have harith : 256 - (n + 1) - a + 1 = 256 - n - a := by omega
        rw [harith, (ih hn').2 a ha (by omega)]
        simp
      · rw [if_neg h, if_neg h]
        have hclose :
            (if 256 - (n + 1) - a = 2 then escape (255 - n - 1)
             else if 256 - (n + 1) - a > 2 then 45 :: escape (255 - n - 1)
             else []) = atomTail a (255 - n - 1) := by
          unfold atomTail
          rcases Nat.lt_trichotomy (256 - (n + 1) - a) 2 with h1 | h1 | h1
          · rw [if_neg (by omega), if_neg (by omega), if_pos (by omega)]
          · rw [if_pos h1, if_neg (by omega), if_pos (by omega)]
          · rw [if_neg (by omega), if_pos h1, if_neg (by omega), if_neg (by omega)]
        rw [hclose, (ih hn').1]
        simp [tailAtoms]

/-- `characterClass.String` = concatenation of the run atoms. -/
theorem goString_eq_atoms (c : characterClass)
    (hlow : ∀ x, c.has x = true → x < 128) :
    c.goString = (runs c).flatMap atom :=
  (stringAux_eq_atoms c hlow 256 (by omega)).1

/-- `x` lies inside one of the runs. -/
def covered (rs : List (Nat × Nat)) (x : Nat) : Prop :=
  ∃ p ∈ rs, p.1 ≤ x ∧ x ≤ p.2

theorem runsA_covered (c : characterClass) :
    ∀ n, n ≤ 256 →
      (∀ x, covered (runsA c n none) x ↔
        (256 - n ≤ x ∧ x < 256 ∧ c.has x = true)) ∧
      (∀ a, a + 1 ≤ 256 - n → ∀ x,
        covered (runsA c n (some a)) x ↔
          ((a ≤ x ∧ x < 256 - n) ∨ (256 - n ≤ x ∧ x < 256 ∧ c.has x = true))) := by
  intro n
  induction n with
  | zero =>
    intro _
    constructor
    · intro x
      simp [runsA, covered]
      omega
    · intro a ha x
      simp [runsA, covered]
      omega
  | succ n ih =>
    intro hn
    have hn' : n ≤ 256 := by omega
    have hnone := (ih hn').1
    have hsome := (ih hn').2
    constructor
    · intro x
      show covered (if c.has (255 - n) = true then runsA c n (some (255 - n))
        else runsA c n none) x ↔ _
      by_cases h : c.has (255 - n) = true
      · rw [if_pos h, hsome (255 - n) (by omega) x]
        constructor
        · rintro (⟨h1, h2⟩ | ⟨h1, h2, h3⟩)
          · have hx : x = 255 - n := by omega
            exact ⟨by omega, by omega, hx ▸ h⟩
          · exact ⟨by omega, h2, h3⟩
        · rintro ⟨h1, h2, h3⟩
          rcases Nat.lt_or_ge x (256 - n) with h4 | h4
          · exact Or.inl ⟨by omega, h4⟩
          · exact Or.inr ⟨h4, h2, h3⟩
      · rw [if_neg h, hnone x]
        constructor
        · rintro ⟨h1, h2, h3⟩
          exact ⟨by omega, h2, h3⟩
        · rintro ⟨h1, h2, h3⟩
          refine ⟨?_, h2, h3⟩
          rcases Nat.lt_or_ge x (256 - n) with h4 | h4
          · have hx : x = 255 - n := by omega
            rw [hx] at h3
            exact absurd h3 (by simp [h])
          · omega
    · intro a ha x
      show covered (if c.has (255 - n) = true then runsA c n (some a)
        else (a, 255 - n - 1) :: runsA c n none) x ↔ _
      by_cases h : c.has (255 - n) = true
      · rw [if_pos h, hsome a (by omega) x]
        constructor
        · rintro (⟨h1, h2⟩ | ⟨h1, h2, h3⟩)
          · rcases Nat.lt_or_ge x (256 - (n + 1)) with h4 | h4
            · exact Or.inl ⟨h1, h4⟩
            · have hx : x = 255 - n := by omega
              exact Or.inr ⟨by omega, by omega, hx ▸ h⟩
          · exact Or.inr ⟨by omega, h2, h3⟩
        · rintro (⟨h1, h2⟩ | ⟨h1, h2, h3⟩)
          · exact Or.inl ⟨h1, by omega⟩
          · rcases Nat.lt_or_ge x (256 - n) with h4 | h4
            · exact Or.inl ⟨by omega, h4⟩
            · exact Or.inr ⟨h4, h2, h3⟩
      · rw [if_neg h]
        have hcons : covered ((a, 255 - n - 1) :: runsA c n none) x ↔
            ((a ≤ x ∧ x ≤ 255 - n - 1) ∨ covered (runsA c n none) x) := by
          unfold covered
          simp
        rw [hcons, hnone x]
        constructor
        · rintro (⟨h1, h2⟩ | ⟨h1, h2, h3⟩)
          · exact Or.inl ⟨h1, by omega⟩
          · exact Or.inr ⟨by omega, h2, h3⟩
        · rintro (⟨h1, h2⟩ | ⟨h1, h2, h3⟩)
          · exact Or.inl ⟨h1, by omega⟩
          · rcases Nat.lt_or_ge x (256 - n) with h4 | h4
            · have hx : x = 255 - n := by omega
              rw [hx] at h3
              exact absurd h3 (by simp [h])
            · exact Or.inr ⟨h4, h2, h3⟩

/-- Every pair of the run list is a genuine run: all its positions are
members, its endpoints are ordered, and it is closed by a gap (or 255). -/
theorem runsA_pairs (c : characterClass) :
    ∀ n, n ≤ 256 →
      (∀ p ∈ runsA c n none,
        (∀ y, p.1 ≤ y → y ≤ p.2 → c.has y = true) ∧
        p.1 ≤ p.2 ∧ p.2 < 256 ∧ (p.2 = 255 ∨ c.has (p.2 + 1) = false)) ∧
      (∀ a, a + 1 ≤ 256 - n →
        (∀ y, a ≤ y → y < 256 - n → c.has y = true) →
        ∀ p ∈ runsA c n (some a),
          (∀ y, p.1 ≤ y → y ≤ p.2 → c.has y = true) ∧
          p.1 ≤ p.2 ∧ p.2 < 256 ∧ (p.2 = 255 ∨ c.has (p.2 + 1) = false)) := by
  intro n
  induction n with
  | zero =>
    intro _
    constructor
    · intro p hp
      simp [runsA] at hp
    · intro a ha hmem p hp
      simp [runsA] at hp
      rw [hp]
      refine ⟨fun y h1 h2 => hmem y h1 (by omega), by omega, by omega, Or.inl rfl⟩
  | succ n ih =>
    intro hn
    have hn' : n ≤ 256 := by omega
    have hnone := (ih hn').1
    have hsome := (ih hn').2
    constructor
    · intro p hp
      rw [show runsA c (n + 1) none = (if c.has (255 - n) = true
          then runsA c n (some (255 - n)) else runsA c n none) from rfl] at hp
      by_cases h : c.has (255 - n) = true
      · rw [if_pos h] at hp
        refine hsome (255 - n) (by omega) ?_ p hp
        intro y h1 h2
        have : y = 255 - n := by omega
        exact this ▸ h
      · rw [if_neg h] at hp
        exact hnone p hp
    · intro a ha hmem p hp
      rw [show runsA c (n + 1) (some a) = (if c.has (255 - n) = true
          then runsA c n (some a) else (a, 255 - n - 1) :: runsA c n none) from rfl] at hp
      by_cases h : c.has (255 - n) = true
      · rw [if_pos h] at hp
        refine hsome a (by omega) ?_ p hp
        intro y h1 h2
        rcases Nat.lt_or_ge y (256 - (n + 1)) with h3 | h3
        · exact hmem y h1 h3
        · have : y = 255 - n := by omega
          exact this ▸ h
      · rw [if_neg h] at hp
        rcases List.mem_cons.mp hp with h1 | h1
        · rw [h1]
          refine ⟨?_, by omega, by omega, Or.inr ?_⟩
          · intro y hy1 hy2
            exact hmem y hy1 (by omega)
          · have : 255 - n - 1 + 1 = 255 - n := by omega
            rw [this]
            simpa using h
        · exact hnone p h1

/-- The first run of `runsA … none` starts at the least member ≥ the
current position. -/
theorem runsA_none_head (c : characterClass) :
    ∀ n, n ≤ 256 → ∀ a b rest,
      runsA c n none = (a, b) :: rest →
      c.has a = true ∧ ∀ y, 256 - n ≤ y → y < a → c.has y = false := by
  intro n
  induction n with
  | zero =>
    intro _ a b rest h
    simp [runsA] at h
  | succ n ih =>
    intro hn a b rest h
    have hn' : n ≤ 256 := by omega
    rw [show runsA c (n + 1) none = (if c.has (255 - n) = true
        then runsA c n (some (255 - n)) else runsA c n none) from rfl] at h
    by_cases hh : c.has (255 - n) = true
    · rw [if_pos hh] at h
      obtain ⟨b', rest', hsh⟩ := runsA_some_shape c n (255 - n)
      rw [hsh] at h
      obtain ⟨ha, -⟩ := Prod.mk.injEq .. ▸ (List.cons.injEq .. ▸ h).1
      constructor
      · exact ha ▸ hh
      · intro y h1 h2
        omega
    · rw [if_neg hh] at h
      obtain ⟨h1, h2⟩ := ih hn' a b rest h
      refine ⟨h1, fun y hy1 hy2 => ?_⟩
      rcases Nat.lt_or_ge y (256 - n) with h3 | h3
      · have : y = 255 - n := by omega
        rw [this]
        simpa using hh
      · exact h2 y h3 hy2

/-- Beyond the last run there are no members. -/
theorem runsA_last (c : characterClass) :
    ∀ n, n ≤ 256 →
      (∀ p, (runsA c n none).getLast? = some p →
        ∀ y, p.2 < y → y < 256 → c.has y = false) ∧
      (∀ a p, (runsA c n (some a)).getLast? = some p →
        ∀ y, p.2 < y → y < 256 → c.has y = false) := by
  intro n
  induction n with
  | zero =>
    intro _
    constructor
    · intro p h
      simp [runsA] at h
    · intro a p h
      simp [runsA] at h
      intro y h1 h2
      rw [← h] at h1
      exact absurd h1 (by omega)
  | succ n ih =>
    intro hn
    have hn' : n ≤ 256 := by omega
    have hnone := (ih hn').1
    have hsome := (ih hn').2
    constructor
    · intro p h
      rw [show runsA c (n + 1) none = (if c.has (255 - n) = true
          then runsA c n (some (255 - n)) else runsA c n none) from rfl] at h
      by_cases hh : c.has (255 - n) = true
      · rw [if_pos hh] at h
        exact hsome _ p h
      · rw [if_neg hh] at h
        exact hnone p h
    · intro a p h
      rw [show runsA c (n + 1) (some a) = (if c.has (255 - n) = true
          then runsA c n (some a) else (a, 255 - n - 1) :: runsA c n none) from rfl] at h
      by_cases hh : c.has (255 - n) = true
      · rw [if_pos hh] at h
        exact hsome a p h
      · rw [if_neg hh] at h
        cases hrest : runsA c n none with
        | nil =>
          rw [hrest] at h
          simp at h
          intro y h1 h2
          rw [← h] at h1
          simp at h1
          rcases Nat.lt_or_ge y (256 - n) with h3 | h3
          · have : y = 255 - n := by omega
            rw [this]
            simpa using hh
          · have hcov := ((runsA_covered c n hn').1 y).2
            rw [hrest] at hcov
            by_contra hy
            obtain ⟨q, hq, -⟩ := hcov ⟨h3, h2, by simpa using hy⟩
            simp at hq
        | cons q qs =>
          rw [hrest, List.getLast?_cons_cons] at h
          have := hnone p
          rw [hrest] at this
          exact this h

end characterClass

/-! ### Parsing the printed atoms back -/

theorem length_foldl_add : ∀ (l : List Nat) (c : characterClass),
    ((l.foldl characterClass.add c : characterClass)).length = c.length := by
  intro l
  induction l with
  | nil => intro c; rfl
  | cons x xs ih =>
    intro c
    show ((xs.foldl characterClass.add (c.add x) : characterClass)).length = _
    rw [ih (c.add x), characterClass.length_add]

theorem length_addRange (c : characterClass) (lo hi : Nat) :
    ((addRange c lo hi : characterClass)).length = c.length :=
  length_foldl_add _ c

theorem has_foldl_add : ∀ (len lo : Nat) (c : characterClass),
    c.length = 32 → lo + len ≤ 256 → ∀ y,
    (((List.range' lo len).foldl characterClass.add c : characterClass).has y = true ↔
      (c.has y = true ∨ (lo ≤ y ∧ y < lo + len))) := by
  intro len
  induction len with
  | zero =>
    intro lo c hlen _ y
    simp [List.range']
  | succ len ih =>
    intro lo c hlen hle y
    rw [List.range'_succ]
    show ((List.range' (lo + 1) len).foldl characterClass.add (c.add lo) :
      characterClass).has y = true ↔ _
    rw [ih (lo + 1) (c.add lo) (by rw [characterClass.length_add]; exact hlen) (by omega) y]
    rw [characterClass.has_add c hlen lo y (by omega)]
    simp only [Bool.or_eq_true, beq_iff_eq]
    constructor
    · rintro ((h | h) | h)
      · exact Or.inl h
      · exact Or.inr (by omega)
      · exact Or.inr (by omega)
    · rintro (h | h)
      · exact Or.inl (Or.inl h)
      · rcases Nat.eq_or_lt_of_le h.1 with h1 | h1
        · exact Or.inl (Or.inr h1)
        · exact Or.inr ⟨by omega, by omega⟩

theorem has_addRange (c : characterClass) (hlen : c.length = 32)
    (lo hi : Nat) (hhi : hi < 256) (y : Nat) :
    ((addRange c lo hi : characterClass).has y = true ↔
      (c.has y = true ∨ (lo ≤ y ∧ y ≤ hi))) := by
  unfold addRange
  rcases le_or_lt lo hi with h | h
  · rw [has_foldl_add (hi + 1 - lo) lo c hlen (by omega) y]
    constructor
    · rintro (h1 | h1)
      · exact Or.inl h1
      · exact Or.inr ⟨h1.1, by omega⟩
    · rintro (h1 | h1)
      · exact Or.inl h1
      · exact Or.inr ⟨h1.1, by omega⟩
  · have : hi + 1 - lo = 0 := by omega
    rw [this]
    simp [List.range']
    omega

namespace characterClass

theorem escChar_lt (a : Nat) (ha : a < 128) : escChar a < 128 := by
  unfold escChar
  repeat' split
  all_goals omega

theorem punct_escChar : ∀ a, a < 128 → a ∈ escapedBytes →
    ¬(7 ≤ a ∧ a ≤ 13) → escChar a = a := by decide

theorem getLast?_append_ne (l l' : List Nat) (h : l' ≠ []) :
    (l ++ l').getLast? = l'.getLast? := by
  rw [List.getLast?_append]
  have hsome := List.getLast?_isSome.mpr h
  obtain ⟨v, hv⟩ := Option.isSome_iff_exists.mp hsome
  rw [hv]
  rfl

theorem flatMap_atom_ne_nil (rs : List (Nat × Nat)) (h : rs ≠ []) :
    rs.flatMap atom ≠ [] := by
  cases rs with
  | nil => exact absurd rfl h
  | cons p ps =>
    rw [List.flatMap_cons]
    intro hc
    exact atom_ne_nil p (List.append_eq_nil.mp hc).1

/-- Consuming one printed `escape a` from the front of the parser loop:
regardless of the incoming `last` state, the byte `a` is added and
becomes the new `last`. -/
theorem step_escape (a : Nat) (ha : a < 128) (acc : characterClass)
    (h : Option Nat) (rest : List Nat) (hrest : rest ≠ [] ∨ a ∈ escapedBytes) :
    parseLoop acc h (escape a ++ rest) = parseLoop (acc.add a) (some a) rest := by
  rw [escape_low a ha]
  by_cases hmem : a ∈ escapedBytes
  · rw [if_pos hmem]
    show parseLoop acc h (92 :: escChar a :: rest) = _
    cases h with
    | none =>
      show (if (92 : Nat) = 92 then
          parseLoop (acc.add (decodeEscape (escChar a))) (some (decodeEscape (escChar a))) rest
        else parseLoop (acc.add 92) (some 92) (escChar a :: rest)) = _
      rw [if_pos rfl, decode_escChar a ha hmem]
    | some lastv =>
      show (if (92 : Nat) = 45 then parseLoop (addRange acc lastv (escChar a)) none rest
        else if (92 : Nat) = 92 then
          parseLoop (acc.add (decodeEscape (escChar a))) (some (decodeEscape (escChar a))) rest
        else parseLoop (acc.add 92) (some 92) (escChar a :: rest)) = _
      rw [if_neg (by omega), if_pos rfl, decode_escChar a ha hmem]
  · rw [if_neg hmem]
    obtain ⟨h45, h92⟩ := not_escaped_facts a ha hmem
    cases rest with
    | nil => exact absurd (hrest.resolve_left (by simp)) hmem
    | cons r rrest =>
      show parseLoop acc h (a :: r :: rrest) = _
      cases h with
      | none =>
        show (if a = 92 then
            parseLoop (acc.add (decodeEscape r)) (some (decodeEscape r)) rrest
          else parseLoop (acc.add a) (some a) (r :: rrest)) = _
        rw [if_neg h92]
      | some lastv =>
        show (if a = 45 then parseLoop (addRange acc lastv r) none rrest
          else if a = 92 then
            parseLoop (acc.add (decodeEscape r)) (some (decodeEscape r)) rrest
          else parseLoop (acc.add a) (some a) (r :: rrest)) = _
        rw [if_neg h45, if_neg h92]

/-- The `-`-range arm of the scanning loop. -/
theorem step_range (acc : characterClass) (lastv bb : Nat) (rest : List Nat) :
    parseLoop acc (some lastv) (45 :: bb :: rest)
      = parseLoop (addRange acc lastv bb) none rest := by
  show (if (45 : Nat) = 45 then parseLoop (addRange acc lastv bb) none rest
    else if (45 : Nat) = 92 then
      parseLoop (acc.add (decodeEscape bb)) (some (decodeEscape bb)) rest
    else parseLoop (acc.add 45) (some 45) (bb :: rest)) = _
  rw [if_pos rfl]

theorem parseLoop_single (acc : characterClass) (h : Option Nat) (z : Nat) :
    parseLoop acc h [z] = acc := by
  cases h <;> rfl

theorem parseLoop_nil (acc : characterClass) (h : Option Nat) :
    parseLoop acc h [] = acc := by
  cases h <;> rfl

/-- Conditions under which a run list parses back exactly: ordered
endpoints, all members below 128, and no ≥3-run ending at a byte the
printer escapes. -/
def atomsOK (rs : List (Nat × Nat)) : Prop :=
  ∀ p ∈ rs, p.1 ≤ p.2 ∧ p.2 < 128 ∧ (p.1 + 2 ≤ p.2 → p.2 ∉ escapedBytes)

theorem covered_cons (p : Nat × Nat) (ps : List (Nat × Nat)) (y : Nat) :
    covered (p :: ps) y ↔ ((p.1 ≤ y ∧ y ≤ p.2) ∨ covered ps y) := by
  unfold covered
  simp

/-- Main parse lemma: scanning the concatenated atoms of a valid run
list, then adding the raw final byte, yields exactly the members of the
runs (on top of whatever was already accumulated). -/
theorem parse_atoms : ∀ (rs : List (Nat × Nat)), rs ≠ [] → atomsOK rs →
    (∀ p, rs.getLast? = some p → ¬(7 ≤ p.2 ∧ p.2 ≤ 13)) →
    ∀ (acc : characterClass), acc.length = 32 →
    ∀ (h : Option Nat) (lastb : Nat), (rs.flatMap atom).getLast? = some lastb →
    ∀ y, (((parseLoop acc h (rs.flatMap atom)).add lastb : characterClass).has y = true ↔
      (acc.has y = true ∨ covered rs y)) := by
  intro rs
  induction rs with
  | nil => intro h; exact absurd rfl h
  | cons p ps ih =>
    intro _ hok hlast acc hlen h lastb hlb y
    obtain ⟨a, b⟩ := p
    obtain ⟨hab, hb128, hrangeE⟩ := hok (a, b) (List.mem_cons_self ..)
    have ha128 : a < 128 := by omega
    have hlen2 : ((acc.add a : characterClass)).length = 32 := by
      rw [length_add]; exact hlen
    by_cases hpsE : ps = []
    · subst hpsE
      simp only [List.flatMap_cons, List.flatMap_nil, List.append_nil] at hlb ⊢
      have hcov : ∀ z, covered [(a, b)] z ↔ (a ≤ z ∧ z ≤ b) := by
        intro z
        rw [covered_cons]
        unfold covered
        simp
      have hlastab := hlast (a, b) rfl
      rcases Nat.lt_trichotomy b (a + 1) with hsh | hsh | hsh
      · -- b = a : singleton run
        have hba : b = a := by omega
        subst hba
        show ((parseLoop acc h (atom (b, b)) : characterClass).add lastb).has y = true ↔ _
        have hatom : atom (b, b) = escape b ++ [] := by
          unfold atom atomTail
          rw [if_pos rfl]
        rw [hatom] at hlb ⊢
        by_cases hmem : b ∈ escapedBytes
        · rw [step_escape b hb128 acc h [] (Or.inr hmem), parseLoop_nil]
          rw [escape_low b hb128, if_pos hmem] at hlb
          simp at hlb
          have hesc : escChar b = b := punct_escChar b hb128 hmem (by simpa using hlastab)
          rw [← hlb, hesc]
          rw [has_add _ (by rw [length_add]; exact hlen) b y (by omega),
            has_add _ hlen b y (by omega), hcov]
          simp only [Bool.or_eq_true, beq_iff_eq]
          constructor
          · rintro ((h1 | h1) | h1)
            · exact Or.inl h1
            · exact Or.inr (by omega)
            · exact Or.inr (by omega)
          · rintro (h1 | h1)
            · exact Or.inl (Or.inl h1)
            · exact Or.inl (Or.inr (by omega))
        · rw [escape_low b hb128, if_neg hmem] at hlb ⊢
          simp at hlb
          simp only [List.append_nil]
          rw [parseLoop_single, ← hlb]
          rw [has_add _ hlen b y (by omega), hcov]
          simp only [Bool.or_eq_true, beq_iff_eq]
          constructor
          · rintro (h1 | h1)
            · exact Or.inl h1
            · exact Or.inr (by omega)
          · rintro (h1 | h1)
            · exact Or.inl h1
            · exact Or.inr (by omega)
      · -- b = a + 1 : run of two
        have hba : b = a + 1 := by omega
        show ((parseLoop acc h (atom (a, b)) : characterClass).add lastb).has y = true ↔ _
        have hatom : atom (a, b) = escape a ++ escape b := by
          unfold atom atomTail
          rw [if_neg (by omega), if_pos hba]
        rw [hatom] at hlb ⊢
        rw [step_escape a ha128 acc h (escape b) (Or.inl (escape_ne_nil b))]
        rw [getLast?_append_ne _ _ (escape_ne_nil b)] at hlb
        by_cases hmem : b ∈ escapedBytes
        · have hesc : escChar b = b := punct_escChar b hb128 hmem (by simpa using hlastab)
          have hshape : escape b = escape b ++ [] := by simp
          rw [hshape, step_escape b hb128 _ (some a) [] (Or.inr hmem), parseLoop_nil]
          rw [escape_low b hb128, if_pos hmem] at hlb
          simp at hlb
          rw [← hlb, hesc]
          rw [has_add _ (by rw [length_add, length_add]; exact hlen) b y (by omega),
            has_add _ (by rw [length_add]; exact hlen) b y (by omega),
            has_add _ hlen a y (by omega), hcov]
          simp only [Bool.or_eq_true, beq_iff_eq]
          constructor
          · rintro (((h1 | h1) | h1) | h1)
            · exact Or.inl h1
            · exact Or.inr (by omega)
            · exact Or.inr (by omega)
            · exact Or.inr (by omega)
          · rintro (h1 | h1)
            · exact Or.inl (Or.inl (Or.inl h1))
            · rcases Nat.eq_or_lt_of_le h1.1 with h2 | h2
              · exact Or.inl (Or.inl (Or.inr h2))
              · exact Or.inl (Or.inr (by omega))
        · rw [escape_low b hb128, if_neg hmem] at hlb ⊢
          simp at hlb
          rw [parseLoop_single, ← hlb]
          rw [has_add _ (by rw [length_add]; exact hlen) b y (by omega),
            has_add _ hlen a y (by omega), hcov]
          simp only [Bool.or_eq_true, beq_iff_eq]
          constructor
          · rintro ((h1 | h1) | h1)
            · exact Or.inl h1
            · exact Or.inr (by omega)
            · exact Or.inr (by omega)
          · rintro (h1 | h1)
            · exact Or.inl (Or.inl h1)
            · rcases Nat.eq_or_lt_of_le h1.1 with h2 | h2
              · exact Or.inl (Or.inr h2)
              · exact Or.inr (by omega)
      · -- b ≥ a + 2 : a `-` range, whose end byte is never escaped
        have hbE : b ∉ escapedBytes := hrangeE (by omega)
        show ((parseLoop acc h (atom (a, b)) : characterClass).add lastb).has y = true ↔ _
        have hatom : atom (a, b) = escape a ++ (45 :: b :: []) := by
          unfold atom atomTail
          rw [if_neg (by omega), if_neg (by omega), escape_low b hb128, if_neg hbE]
        rw [hatom] at hlb ⊢
        rw [step_escape a ha128 acc h _ (Or.inl (by simp)), step_range, parseLoop_nil]
        rw [getLast?_append_ne _ _ (by simp)] at hlb
        simp at hlb
        rw [← hlb]
        rw [has_add _ (by rw [length_addRange, length_add]; exact hlen) b y (by omega)]
        simp only [Bool.or_eq_true, beq_iff_eq]
        rw [has_addRange _ (by rw [length_add]; exact hlen) a b (by omega) y]
        rw [has_add _ hlen a y (by omega), hcov]
        simp only [Bool.or_eq_true, beq_iff_eq]
        constructor
        · rintro (((h1 | h1) | h1) | h1)
          · exact Or.inl h1
          · exact Or.inr (by omega)
          · exact Or.inr (by omega)
          · exact Or.inr (by omega)
        · rintro (h1 | h1)
          · exact Or.inl (Or.inl (Or.inl h1))
          · exact Or.inl (Or.inr (by omega))
    · -- more atoms follow: the whole atom of (a, b) is consumed and the
      -- induction hypothesis handles the rest
      have hpsne : ps ≠ [] := hpsE
      have hgl : ((a, b) :: ps).getLast? = ps.getLast? := by
        cases ps with
        | nil => exact absurd rfl hpsne
        | cons q qs => exact List.getLast?_cons_cons ..
      have hrestne : ps.flatMap atom ≠ [] := flatMap_atom_ne_nil ps hpsne
      have hihok : atomsOK ps := fun r hr => hok r (List.mem_cons_of_mem _ hr)
      have hihlast : ∀ r, ps.getLast? = some r → ¬(7 ≤ r.2 ∧ r.2 ≤ 13) := by
        intro r hr
        exact hlast r (by rw [hgl]; exact hr)
      rw [List.flatMap_cons] at hlb ⊢
      rw [getLast?_append_ne _ _ hrestne] at hlb
      have hcrun : ∀ (acc2 : characterClass), acc2.length = 32 → ∀ h2,
          (((parseLoop acc2 h2 (ps.flatMap atom) : characterClass).add lastb).has y = true ↔
            (acc2.has y = true ∨ covered ps y)) := by
        intro acc2 hlen2' h2
        exact ih hpsne hihok hihlast acc2 hlen2' h2 lastb hlb y
      rcases Nat.lt_trichotomy b (a + 1) with hsh | hsh | hsh
      · have hba : b = a := by omega
        subst hba
        have hatom : atom (b, b) = escape b ++ [] := by
          unfold atom atomTail
          rw [if_pos rfl]
        rw [hatom, List.append_nil, step_escape b hb128 acc h _ (Or.inl hrestne)]
        rw [hcrun _ hlen2 (some b), has_add _ hlen b y (by omega), covered_cons]
        simp only [Bool.or_eq_true, beq_iff_eq]
        constructor
        · rintro ((h1 | h1) | h1)
          · exact Or.inl h1
          · exact Or.inr (Or.inl (by omega))
          · exact Or.inr (Or.inr h1)
        · rintro (h1 | (h1 | h1))
          · exact Or.inl (Or.inl h1)
          · exact Or.inl (Or.inr (by omega))
          · exact Or.inr h1
      · have hba : b = a + 1 := by omega
        have hatom : atom (a, b) = escape a ++ escape b := by
          unfold atom atomTail
          rw [if_neg (by omega), if_pos hba]
        rw [hatom, List.append_assoc,
          step_escape a ha128 acc h _ (Or.inl (by simp [escape_ne_nil b])),
          step_escape b hb128 _ (some a) _ (Or.inl hrestne)]
        rw [hcrun _ (by rw [length_add]; exact hlen2) (some b)]
        rw [has_add _ (by rw [length_add]; exact hlen) b y (by omega),
          has_add _ hlen a y (by omega), covered_cons]
        simp only [Bool.or_eq_true, beq_iff_eq]
        constructor
        · rintro (((h1 | h1) | h1) | h1)
          · exact Or.inl h1
          · exact Or.inr (Or.inl (by omega))
          · exact Or.inr (Or.inl (by omega))
          · exact Or.inr (Or.inr h1)
        · rintro (h1 | (h1 | h1))
          · exact Or.inl (Or.inl (Or.inl h1))
          · rcases Nat.eq_or_lt_of_le h1.1 with h2 | h2
            · exact Or.inl (Or.inl (Or.inr h2))
            · exact Or.inl (Or.inr (by omega))
          · exact Or.inr h1
      · have hbE : b ∉ escapedBytes := hrangeE (by omega)
        have hatom : atom (a, b) = escape a ++ (45 :: b :: []) := by
          unfold atom atomTail
          rw [if_neg (by omega), if_neg (by omega), escape_low b hb128, if_neg hbE]
        rw [hatom, List.append_assoc,
          step_escape a ha128 acc h _ (Or.inl (by simp))]
        show (((parseLoop (acc.add a) (some a) (45 :: b :: ps.flatMap atom) :
          characterClass).add lastb).has y = true ↔ _)
        rw [step_range]
        rw [hcrun _ (by rw [length_addRange]; exact hlen2) none]
        rw [has_addRange _ hlen2 a b (by omega) y,
          has_add _ hlen a y (by omega), covered_cons]
        simp only [Bool.or_eq_true, beq_iff_eq]
        constructor
        · rintro (((h1 | h1) | h1) | h1)
          · exact Or.inl h1
          · exact Or.inr (Or.inl (by omega))
          · exact Or.inr (Or.inl (by omega))
          · exact Or.inr (Or.inr h1)
        · rintro (h1 | (h1 | h1))
          · exact Or.inl (Or.inl (Or.inl h1))
          · exact Or.inl (Or.inr (by omega))
          · exact Or.inr h1

theorem wf_mk : (mk : characterClass).wf := by
  constructor
  · simp [mk]
  · intro b hb
    have hb2 : b ∈ List.replicate 32 (0 : Nat) := hb
    have hb0 : b = 0 := (List.mem_replicate.mp hb2).2
    omega

theorem wf_foldl_add : ∀ (l : List Nat) (c : characterClass),
    c.wf → ((l.foldl characterClass.add c : characterClass)).wf := by
  intro l
  induction l with
  | nil => intro c hc; exact hc
  | cons x xs ih => intro c hc; exact ih (c.add x) (wf_add c hc x)

theorem wf_addRange (c : characterClass) (hc : c.wf) (lo hi : Nat) :
    ((addRange c lo hi : characterClass)).wf :=
  wf_foldl_add _ c hc

theorem wf_parseLoop : ∀ (n : Nat) (text : List Nat), text.length ≤ n →
    ∀ (acc : characterClass) (h : Option Nat), acc.wf →
    ((parseLoop acc h text : characterClass)).wf := by
  intro n
  induction n with
  | zero =>
    intro text hle acc h hwf
    cases text with
    | nil => rw [parseLoop_nil]; exact hwf
    | cons x xs => simp at hle
  | succ n ih =>
    intro text hle acc h hwf
    match text with
    | [] => rw [parseLoop_nil]; exact hwf
    | [z] => rw [parseLoop_single]; exact hwf
    | x :: y :: rest =>
      simp at hle
      cases h with
      | none =>
        show ((if x = 92 then
            parseLoop (acc.add (decodeEscape y)) (some (decodeEscape y)) rest
          else parseLoop (acc.add x) (some x) (y :: rest) : characterClass)).wf
        by_cases h92 : x = 92
        · rw [if_pos h92]
          exact ih rest (by omega) _ _ (wf_add acc hwf _)
        · rw [if_neg h92]
          exact ih (y :: rest) (by simp; omega) _ _ (wf_add acc hwf _)
      | some lastv =>
        show ((if x = 45 then parseLoop (addRange acc lastv y) none rest
          else if x = 92 then
            parseLoop (acc.add (decodeEscape y)) (some (decodeEscape y)) rest
          else parseLoop (acc.add x) (some x) (y :: rest) : characterClass)).wf
        by_cases h45 : x = 45
        · rw [if_pos h45]
          exact ih rest (by omega) _ _ (wf_addRange acc hwf _ _)
        · rw [if_neg h45]
          by_cases h92 : x = 92
          · rw [if_pos h92]
            exact ih rest (by omega) _ _ (wf_add acc hwf _)
          · rw [if_neg h92]
            exact ih (y :: rest) (by simp; omega) _ _ (wf_add acc hwf _)

/-- Evaluating `parseClassText` on a text that does not begin with `^`. -/
theorem parseClassText_noInverse (t0 : Nat) (srest : List Nat)
    (h94 : t0 ≠ 94) (lastb : Nat) (hl : (t0 :: srest).getLast? = some lastb) :
    parseClassText (t0 :: srest)
      = some ((parseLoop mk none (t0 :: srest)).add lastb) := by
  show (match (if t0 = 94 then srest else t0 :: srest).getLast? with
    | none => none
    | some lb => some (if t0 = 94 then
        (((parseLoop mk none (if t0 = 94 then srest else t0 :: srest)).add lb :
          characterClass)).complement
      else (parseLoop mk none (if t0 = 94 then srest else t0 :: srest)).add lb))
    = some ((parseLoop mk none (t0 :: srest)).add lastb)
  rw [if_neg h94, hl]
  show some (if t0 = 94 then _ else _) = _
  rw [if_neg h94]

/--
AMENDED CLAIM C1 (class canonicalization).  The unrestricted claim
`parse(print(class)) = class` is false on the code (see
`C1_counterexample`); it holds for every resolved class `c` that
  * is well formed (as every resolved class is),
  * is nonempty,
  * contains only bytes < 128 (`escape` renders bytes ≥ 128 as two
    UTF-8 bytes, which re-parse as two different members),
  * does not have `^` (94) as its least member (the printed text would
    re-parse as negated),
  * does not have its greatest member in 7..13 (else the trailing raw
    byte add of `Tree.AddClass` adds the letter of the `\a`..`\v`
    escape as a spurious member), and
  * has no maximal run of length ≥ 3 ending at a byte the printer
    escapes (else the `-` range re-parses up to the backslash).
-/
theorem classRoundTrip (c : characterClass)
    (hwf : c.wf)
    (hne : ∃ x, c.has x = true)
    (hlow : ∀ x, c.has x = true → x < 128)
    (hmin94 : c.has 94 = true → ∃ y, y < 94 ∧ c.has y = true)
    (hmax : ∀ x, c.has x = true → 7 ≤ x → x ≤ 13 → ∃ y, x < y ∧ c.has y = true)
    (hrun : ∀ b, c.has b = true → c.has (b + 1) = false →
      c.has (b - 1) = true → c.has (b - 2) = true → b ∉ escapedBytes) :
    parseClassText c.goString = some c := by
  have hruns := goString_eq_atoms c hlow
  -- the run list is nonempty
  obtain ⟨x0, hx0⟩ := hne
  have hx0lt : x0 < 128 := hlow x0 hx0
  have hx0cov : covered (runs c) x0 :=
    ((runsA_covered c 256 (le_refl _)).1 x0).2 ⟨by omega, by omega, hx0⟩
  have hrsne : runs c ≠ [] := by
    intro h
    rw [h] at hx0cov
    obtain ⟨p, hp, -⟩ := hx0cov
    simp at hp
  have hpairs := (runsA_pairs c 256 (le_refl _)).1
  -- the atoms are well shaped
  have hok : atomsOK (runs c) := by
    intro p hp
    obtain ⟨hmem, hab, hb256, hgap⟩ := hpairs p hp
    have hbmem : c.has p.2 = true := hmem p.2 hab (le_refl _)
    have hb128 : p.2 < 128 := hlow _ hbmem
    refine ⟨hab, hb128, ?_⟩
    intro h2
    refine hrun p.2 hbmem ?_ (hmem (p.2 - 1) (by omega) (by omega))
      (hmem (p.2 - 2) (by omega) (by omega))
    rcases hgap with h | h
    · exact absurd h (by omega)
    · exact h
  -- the greatest member is not in 7..13
  have hlastOK : ∀ p, (runs c).getLast? = some p → ¬(7 ≤ p.2 ∧ p.2 ≤ 13) := by
    rintro p hp ⟨h7, h13⟩
    have hnomore := (runsA_last c 256 (le_refl _)).1 p hp
    obtain ⟨hmem, hab, -, -⟩ := hpairs p (List.mem_of_mem_getLast? hp)
    have hbmem := hmem p.2 hab (le_refl _)
    obtain ⟨y, hy1, hy2⟩ := hmax p.2 hbmem h7 h13
    have hylow := hlow y hy2
    rw [hnomore y hy1 (by omega)] at hy2
    exact absurd hy2 (by simp)
  -- split off the first run
  obtain ⟨⟨a0, b0⟩, rs', hrsEq⟩ : ∃ p rest, runs c = p :: rest := by
    cases hr : runs c with
    | nil => exact absurd hr hrsne
    | cons p rest => exact ⟨p, rest, rfl⟩
  obtain ⟨hab0, hb0128, -⟩ := hok (a0, b0) (by rw [hrsEq]; exact List.mem_cons_self ..)
  have ha0128 : a0 < 128 := by
    have := hb0128
    omega
  have ha0ne : a0 ≠ 94 := by
    intro hEq
    obtain ⟨hhas, hminp⟩ := runsA_none_head c 256 (le_refl _) a0 b0 rs' hrsEq
    rw [hEq] at hhas
    obtain ⟨y, hy1, hy2⟩ := hmin94 hhas
    rw [hminp y (by omega) (by omega)] at hy2
    exact absurd hy2 (by simp)
  -- the printed text: first byte and last byte
  have hsne : (runs c).flatMap atom ≠ [] := flatMap_atom_ne_nil _ hrsne
  obtain ⟨lastb, hlb⟩ := Option.isSome_iff_exists.mp (List.getLast?_isSome.mpr hsne)
  obtain ⟨t0, srest, hsEq, ht0⟩ :
      ∃ t0 srest, (runs c).flatMap atom = t0 :: srest ∧ t0 ≠ 94 := by
    rw [hrsEq, List.flatMap_cons]
    unfold atom
    rw [escape_low a0 ha0128]
    by_cases hmem : a0 ∈ escapedBytes
    · rw [if_pos hmem]
      exact ⟨92, _, rfl, by omega⟩
    · rw [if_neg hmem]
      exact ⟨a0, _, rfl, ha0ne⟩
  -- well-formedness of the reparsed bitmap
  have hwfres : (((parseLoop mk none ((runs c).flatMap atom)).add lastb :
      characterClass)).wf := by
    refine wf_add _ ?_ lastb
    exact wf_parseLoop _ _ (le_refl _) mk none wf_mk
  -- assemble
  rw [hruns, hsEq, parseClassText_noInverse t0 srest ht0 lastb (hsEq ▸ hlb), ← hsEq]
  congr 1
  refine eq_of_has_eq _ c hwfres hwf ?_
  intro y hy
  have hmain := parse_atoms (runs c) hrsne hok hlastOK mk (by simp [mk]) none lastb hlb y
  rw [mk_has y] at hmain
  simp only [Bool.false_eq_true, false_or] at hmain
  have hcov : covered (runs c) y ↔ (256 - 256 ≤ y ∧ y < 256 ∧ c.has y = true) :=
    (runsA_covered c 256 (le_refl _)).1 y
  rw [Bool.eq_iff_iff, hmain, hcov]
  constructor
  · rintro ⟨-, -, h⟩
    exact h
  · intro h
    exact ⟨by omega, hy, h⟩

theorem wf_complement (c : characterClass) (hc : c.wf) :
    ((c.complement : characterClass)).wf := by
  obtain ⟨hlen, hval⟩ := hc
  constructor
  · rw [complement, List.length_map]
    exact hlen
  · intro b hb
    rw [complement] at hb
    obtain ⟨v, hv, hvb⟩ := List.mem_map.mp hb
    have h256 : (256 : Nat) = 2 ^ 8 := by norm_num
    rw [← hvb]
    exact h256 ▸ Nat.xor_lt_two_pow (h256 ▸ hval v hv) (by norm_num)

/-- Every resolved class (anything `Tree.AddClass` produces) is a
well-formed 32-byte bitmap. -/
theorem wf_parseClassText (text : List Nat) (c : characterClass)
    (h : parseClassText text = some c) : c.wf := by
  match text with
  | [] => exact absurd h (by simp [parseClassText])
  | t0 :: rest =>
    show c.wf
    have hstep : ∀ (body : List Nat) (lastb : Nat),
        (((parseLoop mk none body).add lastb : characterClass)).wf :=
      fun body lastb => wf_add _ (wf_parseLoop body.length body (le_refl _) mk none wf_mk) _
    have h2 : (match (if t0 = 94 then rest else t0 :: rest).getLast? with
        | none => (none : Option characterClass)
        | some lastb => some (if t0 = 94 then
            (((parseLoop mk none (if t0 = 94 then rest else t0 :: rest)).add lastb :
              characterClass)).complement
          else (parseLoop mk none (if t0 = 94 then rest else t0 :: rest)).add lastb))
        = some c := h
    rcases hlast : (if t0 = 94 then rest else t0 :: rest).getLast? with - | lastb
    · rw [hlast] at h2
      exact absurd h2 (by simp)
    · rw [hlast] at h2
      simp only [Option.some_inj] at h2
      by_cases h94 : t0 = 94
      · rw [← h2, if_pos h94]
        exact wf_complement _ (hstep _ _)
      · rw [← h2, if_neg h94]
        exact hstep _ _

end characterClass

/-- C1 counterexample: the claim that `parse(print(class)) = class`
bit-for-bit for every resolved class fails on the code.  Four concrete
resolved classes break it (each shown with the class text that resolves
it): byte 7 alone (printed `\a`, re-parsed as {7, 'a'} because
`Tree.AddClass` adds the raw final byte); {94, 96} (printed starting
with `^`, re-parsed as a negated class); {5, 6, 7} (printed
`\x05-\a`, whose `-` range re-parses up to the backslash 92);
{255} (printed as the two UTF-8 bytes 195, 191 by Go's `%c`). -/
theorem C1_counterexample :
    (parseClassText [7] = some (characterClass.mk.add 7) ∧
      parseClassText (characterClass.mk.add 7).goString
        ≠ some (characterClass.mk.add 7)) ∧
    (parseClassText [92, 94, 96] = some ((characterClass.mk.add 94).add 96) ∧
      parseClassText ((characterClass.mk.add 94).add 96).goString
        ≠ some ((characterClass.mk.add 94).add 96)) ∧
    (parseClassText [5, 45, 7] = some (((characterClass.mk.add 5).add 6).add 7) ∧
      parseClassText (((characterClass.mk.add 5).add 6).add 7).goString
        ≠ some (((characterClass.mk.add 5).add 6).add 7)) ∧
    (parseClassText [255] = some (characterClass.mk.add 255) ∧
      parseClassText (characterClass.mk.add 255).goString
        ≠ some (characterClass.mk.add 255)) := by
  decide

/-- C1 witness: the amended round-trip theorem
`characterClass.classRoundTrip` applied to the concrete resolved class
of the class text `a`, namely {97}. -/
theorem C1_witness :
    parseClassText [97] = some (characterClass.mk.add 97) ∧
    parseClassText (characterClass.mk.add 97).goString
      = some (characterClass.mk.add 97) := by
  constructor
  · decide
  · apply characterClass.classRoundTrip
    · exact ⟨by decide, by decide⟩
    · exact ⟨97, by decide⟩
    · intro x hx
      rcases Nat.lt_or_ge x 256 with h | h
      · exact (by decide :
          ∀ x, x < 256 → (characterClass.mk.add 97).has x = true → x < 128) x h hx
      · rw [characterClass.has_hi _ (by decide) x h] at hx
        exact absurd hx (by simp)
    · intro h94
      exact absurd h94 (by decide)
    · intro x hx h7 h13
      rw [(by decide : ∀ x, x < 14 → (characterClass.mk.add 97).has x = false)
        x (by omega)] at hx
      exact absurd hx (by simp)
    · intro b h1 h2 h3 h4
      rcases Nat.lt_or_ge b 256 with h | h
      · exact (by decide : ∀ b, b < 256 → (characterClass.mk.add 97).has b = true →
          (characterClass.mk.add 97).has (b - 1) = true →
          b ∉ characterClass.escapedBytes) b h h1 h3
      · rw [characterClass.has_hi _ (by decide) b h] at h1
        exact absurd h1 (by simp)

-- Sanity checks (concrete evaluations of the embedding).
example : (parseClassText [97]).map (fun c => c.has 97) = some true := by decide
example : (parseClassText [97, 45, 99]).map (fun c => (c.has 98, c.has 100)) =
    some (true, false) := by decide
example : -- `[\n]` resolves to {'\n', 'n'}: the final raw byte is added too.
    (parseClassText [92, 110]).map (fun c => (c.has 10, c.has 110)) =
    some (true, true) := by decide
example : -- `[^a]` complements.
    (parseClassText [94, 97]).map (fun c => (c.has 97, c.has 98)) =
    some (false, true) := by decide
example : -- S2-style: class `0-9` prints back as `0-9`.
    (parseClassText [48, 45, 57]).map characterClass.goString =
    some [48, 45, 57] := by decide

/-! ## C4: width of the thunk action-id field

`Tree.Compile` computes

    bits := 0
    for length := len(t.Actions); length != 0; length >>= 1 { bits++ }
    switch { case bits < 8: bits = 8; case bits < 16: bits = 16;
             case bits < 32: bits = 32; case bits < 64: bits = 64 }

and emits `thunks := []struct {action uint<bits>; ...}`. -/

/-- The bit-counting loop (`for length != 0 { bits++; length >>= 1 }`),
with a structural fuel so the kernel can evaluate it; `bitlen n`
supplies fuel `n`, which always suffices. -/
def bitlenAux : Nat → Nat → Nat
  | 0, _ => 0
  | _ + 1, 0 => 0
  | fuel + 1, n + 1 => bitlenAux fuel ((n + 1) / 2) + 1

/-- Number of binary digits of `n` (0 for 0). -/
def bitlen (n : Nat) : Nat := bitlenAux n n

/-- The width rounding switch of `Tree.Compile`. -/
def actionBits (n : Nat) : Nat :=
  let bits := bitlen n
  if bits < 8 then 8
  else if bits < 16 then 16
  else if bits < 32 then 32
  else if bits < 64 then 64
  else bits

/-- The width the claim predicts: the smallest member of {8,16,32,64}
whose value range contains `n`. -/
def claimWidth (n : Nat) : Nat :=
  if n < 2 ^ 8 then 8 else if n < 2 ^ 16 then 16 else if n < 2 ^ 32 then 32 else 64

/-- The width the code actually produces (amended claim): the smallest
member of {8,16,32,64} strictly greater than the bit-length of `n`,
i.e. the smallest whose range contains `2 * n`. -/
def leastWidthAbove (n : Nat) : Nat :=
  if n < 2 ^ 7 then 8 else if n < 2 ^ 15 then 16 else if n < 2 ^ 31 then 32 else 64

theorem bitlenAux_le_iff : ∀ (fuel n k : Nat), n ≤ fuel →
    (bitlenAux fuel n ≤ k ↔ n < 2 ^ k) := by
  intro fuel
  induction fuel with
  | zero =>
    intro n k hn
    have hn0 : n = 0 := by omega
    subst hn0
    simp [bitlenAux, Nat.pos_pow_of_pos]
  | succ fuel ih =>
    intro n k hn
    cases n with
    | zero => simp [bitlenAux, Nat.pos_pow_of_pos]
    | succ n =>
      show bitlenAux fuel ((n + 1) / 2) + 1 ≤ k ↔ n + 1 < 2 ^ k
      cases k with
      | zero =>
        simp only [Nat.pow_zero]
        omega
      | succ k =>
        have hih := ih ((n + 1) / 2) k (by omega)
        rw [Nat.pow_succ]
        omega

theorem bitlen_le_iff (n k : Nat) : bitlen n ≤ k ↔ n < 2 ^ k :=
  bitlenAux_le_iff n n k (le_refl n)

/--
C4 (amended).  For a grammar with at least one action, the action-id
width is the smallest member of {8,16,32,64} *strictly greater than the
bit-length* of `len(actions)` — not the smallest whose value range
contains `len(actions)`.  (The extra headroom is what keeps the three
meta-action ids `yyPush = len`, `yyPop = len+1`, `yySet = len+2`
representable.)  In particular a grammar with exactly 255 actions gets
width 16, and width 8 is used exactly when there are at most 127
actions.
-/
theorem C4_actionBits_amended (n : Nat) (h1 : 1 ≤ n) (h63 : n < 2 ^ 63) :
    actionBits n = leastWidthAbove n ∧ (actionBits n = 8 ↔ n ≤ 127) := by
  have h7 := bitlen_le_iff n 7
  have h15 := bitlen_le_iff n 15
  have h31 := bitlen_le_iff n 31
  have h63' := bitlen_le_iff n 63
  have hb : bitlen n ≤ 63 := h63'.mpr h63
  unfold actionBits leastWidthAbove
  constructor
  · by_cases c7 : n < 2 ^ 7
    · rw [if_pos (by omega : bitlen n < 8), if_pos c7]
    · rw [if_neg (by omega : ¬bitlen n < 8), if_neg c7]
      by_cases c15 : n < 2 ^ 15
      · rw [if_pos (by omega : bitlen n < 16), if_pos c15]
      · rw [if_neg (by omega : ¬bitlen n < 16), if_neg c15]
        by_cases c31 : n < 2 ^ 31
        · rw [if_pos (by omega : bitlen n < 32), if_pos c31]
        · rw [if_neg (by omega : ¬bitlen n < 32), if_neg c31,
            if_pos (by omega : bitlen n < 64)]
  · by_cases c7 : n < 2 ^ 7
    · rw [if_pos (by omega : bitlen n < 8)]
      simp only [true_iff]
      omega
    · rw [if_neg (by omega : ¬bitlen n < 8)]
      have hn127 : ¬n ≤ 127 := by omega
      by_cases c15 : bitlen n < 16
      · rw [if_pos c15]
        omega
      · rw [if_neg c15]
        by_cases c31 : bitlen n < 32
        · rw [if_pos c31]
          omega
        · rw [if_neg c31, if_pos (by omega : bitlen n < 64)]
          omega

/-- C4 counterexample: with exactly 255 actions the emitted width is 16,
while the claim ("smallest of {8,16,32,64} whose value range contains
255") predicts 8. -/
theorem C4_counterexample :
    actionBits 255 = 16 ∧ claimWidth 255 = 8 ∧ actionBits 255 ≠ claimWidth 255 := by
  decide

/-- C4 witness: the amended theorem applied at 255 actions. -/
theorem C4_witness :
    1 ≤ 255 ∧ 255 < 2 ^ 63 ∧
      (actionBits 255 = leastWidthAbove 255 ∧ (actionBits 255 = 8 ↔ 255 ≤ 127)) :=
  ⟨by decide, by norm_num, C4_actionBits_amended 255 (by decide) (by norm_num)⟩

/-! ## The AST (`Type`, `Node`, `rule`, `token`, `nodeList`)

One tagged union for the Go node forms.  `ruleN` carries the rule's
name, dense id and optional expression (`nil` expression means
`GetExpression()` returns the shared `nilNode`).  Class tokens carry the
literal text and, for the synthetic tokens built by the optimizer, the
resolved class (`Tree.AddClass` tokens have a nil class pointer and are
resolved through the tree's class map). -/

namespace Peg

inductive Node where
  | ruleN (nm : String) (id : Nat) (expr : Option Node)
  | nameN (nm : String)
  | dot
  | character (s : List Nat)
  | stringT (s : List Nat)
  | classT (s : List Nat) (cl : Option characterClass)
  | predicate (s : List Nat)
  | commitT
  | beginT
  | endT
  | actionN (text : List Nat) (id : Nat)
  | alternate (es : List Node)
  | unorderedAlternate (es : List Node)
  | sequence (es : List Node)
  | peekFor (es : List Node)
  | peekNot (es : List Node)
  | query (es : List Node)
  | star (es : List Node)
  | plus (es : List Node)
  | nilT

/-! ## Go map helpers (association lists with overwrite) -/

def lookupS {α : Type} (m : List (String × α)) (k : String) : Option α :=
  (m.find? (fun p => p.1 == k)).map (fun p => p.2)

def setS {α : Type} (m : List (String × α)) (k : String) (v : α) : List (String × α) :=
  if (m.find? (fun p => p.1 == k)).isSome
  then m.map (fun p => if p.1 == k then (k, v) else p)
  else m ++ [(k, v)]

/-! ## The `Tree` container and builder state -/

structure Tree where
  rules : List (String × Node)
  rulesCount : List (String × Nat)
  ruleId : Nat
  listL : List Node
  classes : List (List Nat × characterClass)
  defines : List (String × String)
  switchExcl : List String
  inline : Bool
  switchFlag : Bool

/-- `func New(inline, _switch bool) *Tree`: only four directive keys are
ever present in the fresh `defines` map. -/
def New (inline _switch : Bool) : Tree :=
  { rules := [], rulesCount := [], ruleId := 0, listL := [],
    classes := [],
    defines := [("package", ""), ("Peg", "yyParser"),
                ("userstate", ""), ("yystype", "yyStype")],
    switchExcl := [], inline := inline, switchFlag := _switch }

/-- `func (t *Tree) Define(name, text string)`: writes only keys already
present in the map. -/
def Tree.Define (t : Tree) (name text : String) : Tree :=
  if (lookupS t.defines name).isSome
  then { t with defines := setS t.defines name text }
  else t

theorem lookupS_cons {α : Type} (a : String) (b : α)
    (l : List (String × α)) (k' : String) :
    lookupS ((a, b) :: l) k' = if a = k' then some b else lookupS l k' := by
  unfold lookupS
  by_cases h : a = k'
  · rw [List.find?_cons_of_pos _ (by simpa using h), if_pos h]
    rfl
  · rw [List.find?_cons_of_neg _ (by simpa using h), if_neg h]

theorem lookupS_map_set {α : Type} :
    ∀ (m : List (String × α)) (k : String) (v : α) (k' : String),
    lookupS (m.map (fun p => if p.1 == k then (k, v) else p)) k'
      = if k' = k then ((lookupS m k).map (fun _ => v)) else lookupS m k' := by
  intro m k v k'
  induction m with
  | nil =>
    show (none : Option α) = if k' = k then Option.map (fun _ => v) none else none
    split <;> rfl
  | cons p rest ih =>
    obtain ⟨a, b⟩ := p
    show lookupS ((if (a == k) = true then (k, v) else (a, b)) ::
        rest.map (fun p => if p.1 == k then (k, v) else p)) k' = _
    by_cases hp : a = k
    · rw [if_pos (by simpa using hp)]
      rw [lookupS_cons k v _ k', lookupS_cons a b rest k', lookupS_cons a b rest k]
      by_cases hk' : k = k'
      · rw [if_pos hk', if_pos hk'.symm, if_pos hp]
        rfl
      · rw [if_neg hk', if_neg (fun h => hk' h.symm), ih,
          if_neg (fun h => hk' h.symm), if_neg (hp ▸ hk')]
    · rw [if_neg (by simpa using hp)]
      rw [lookupS_cons a b _ k', lookupS_cons a b rest k', lookupS_cons a b rest k]
      by_cases hak' : a = k'
      · have hk' : ¬(k' = k) := fun h => hp (h ▸ hak')
        rw [if_pos hak', if_neg hk', if_pos hak']
      · rw [if_neg hak', if_neg hak', ih, if_neg hp]

theorem lookupS_set_of_mem {α : Type} (m : List (String × α)) (k : String)
    (v : α) (k' : String) (h : (lookupS m k).isSome) :
    lookupS (setS m k v) k' = if k' = k then some v else lookupS m k' := by
  unfold setS
  rw [if_pos (by unfold lookupS at h; simpa using h)]
  rw [lookupS_map_set m k v k']
  by_cases hk' : k' = k
  · rw [if_pos hk', if_pos hk']
    obtain ⟨w, hw⟩ := Option.isSome_iff_exists.mp h
    rw [hw]
    rfl
  · rw [if_neg hk', if_neg hk']

/-- C5 (amended): `Tree.Define` writes a key only when it is already
present in the `defines` map; `New` seeds exactly `package`, `Peg`,
`userstate`, `yystype`, so those four are the recognized directives and
every other key — including `noexport` — leaves the `Tree` entirely
unchanged. -/
theorem C5_Define_amended (t : Tree) (k v : String) :
    (∀ k', lookupS (t.Define k v).defines k'
        = if k' = k ∧ (lookupS t.defines k).isSome = true then some v
          else lookupS t.defines k') ∧
    (∀ inline sw, Tree.Define (New inline sw) "noexport" v = New inline sw) := by
  constructor
  · intro k'
    unfold Tree.Define
    by_cases h : (lookupS t.defines k).isSome = true
    · rw [if_pos h]
      show lookupS (setS t.defines k v) k' = _
      rw [lookupS_set_of_mem _ _ _ _ h]
      by_cases hk' : k' = k
      · rw [if_pos hk', if_pos ⟨hk', h⟩]
      · rw [if_neg hk', if_neg (fun hc => hk' hc.1)]
    · rw [if_neg h, if_neg (fun hc => h hc.2)]
  · intro inline sw
    rfl

/-- C5 counterexample: the claim says `Define("noexport", v)` records
the value among the recognized directives; on the code the key
`noexport` is missing from `New`'s map, so the call is silently
ignored (even though the bundled leg front-end issues it for the
`%noexport` directive). -/
theorem C5_counterexample :
    lookupS ((New false false).Define "noexport" "1").defines "noexport" = none ∧
    (New false false).Define "noexport" "1" = New false false := by
  exact ⟨rfl, rfl⟩

/-! ## C10: directive defaults and their use during emission -/

/-- `Tree.Compile`: `if p := t.defines["package"]; p != "" { print("package %v…") }`. -/
def packageClause (t : Tree) : List String :=
  let p := (lookupS t.defines "package").getD ""
  if p ≠ "" then ["package " ++ p] else []

/-- `pegname := t.defines["Peg"]`. -/
def pegname (t : Tree) : String := (lookupS t.defines "Peg").getD ""

/-- The `type %v struct {%v …` header: the parser type is named by the
`Peg` directive and the `userstate` directive is spliced into the body. -/
def typeDecl (t : Tree) : String :=
  "type " ++ pegname t ++ " struct " ++ (lookupS t.defines "userstate").getD ""

/-- The `var yy %s` / `var yyval = make([]%s, 200)` lines, emitted only
when the grammar has variables (`nvar > 0`). -/
def yyvalDecl (t : Tree) (nvar : Nat) : List String :=
  if nvar > 0 then
    ["var yy " ++ (lookupS t.defines "yystype").getD "",
     "var yyval = make([]" ++ (lookupS t.defines "yystype").getD "" ++ ", 200)"]
  else []

/-- C10: after `New` the directive map holds `package=""`,
`Peg="yyParser"`, `userstate=""`, `yystype="yyStype"`; and for any tree
still carrying those defaults the emitted parser type is named
`yyParser`, the `yyval` element type is `yyStype`, and no package
clause is emitted. -/
theorem C10_defaults (inline sw : Bool) :
    lookupS (New inline sw).defines "package" = some "" ∧
    lookupS (New inline sw).defines "Peg" = some "yyParser" ∧
    lookupS (New inline sw).defines "userstate" = some "" ∧
    lookupS (New inline sw).defines "yystype" = some "yyStype" ∧
    (∀ t : Tree, ∀ nvar : Nat, 0 < nvar →
      lookupS t.defines "package" = some "" →
      lookupS t.defines "Peg" = some "yyParser" →
      lookupS t.defines "userstate" = some "" →
      lookupS t.defines "yystype" = some "yyStype" →
      packageClause t = [] ∧ typeDecl t = "type yyParser struct " ∧
      yyvalDecl t nvar = ["var yy yyStype", "var yyval = make([]yyStype, 200)"]) := by
  refine ⟨rfl, rfl, rfl, rfl, ?_⟩
  intro t nvar hn hpkg hpeg hus hyy
  refine ⟨?_, ?_, ?_⟩
  · unfold packageClause
    rw [hpkg]
    simp
  · unfold typeDecl pegname
    rw [hpeg, hus]
    rfl
  · unfold yyvalDecl
    rw [if_pos hn, hyy]
    rfl

/-- C10 witness: the defaults part applied to the fresh tree
`New true false` with one variable. -/
theorem C10_witness :
    packageClause (New true false) = [] ∧
    typeDecl (New true false) = "type yyParser struct " ∧
    yyvalDecl (New true false) 1 = ["var yy yyStype", "var yyval = make([]yyStype, 200)"] :=
  (C10_defaults true false).2.2.2.2 (New true false) 1 (by decide) rfl rfl rfl rfl

/-! ## C9: the builder node stack

`Tree` holds `stack [1024]Node` and `top int`; `push` is
`t.top++; t.stack[t.top] = n` and `pop` is
`n := t.stack[t.top]; t.top--`, with no bounds check anywhere.  Only
the index arithmetic matters for the safety claim, so the model tracks
the indices each call accesses (`top` is a Go `int`, hence `Int`). -/

inductive StackOp where
  | push
  | pop

/-- The array has 1024 slots, valid indices 0..1023. -/
def stackSlots : Nat := 1024

/-- Index accessed by each call in sequence: a `push` writes
`top + 1`, a `pop` reads `top`. -/
def stackAccesses : List StackOp → Int → List Int
  | [], _ => []
  | StackOp.push :: ops, top => (top + 1) :: stackAccesses ops (top + 1)
  | StackOp.pop :: ops, top => top :: stackAccesses ops (top - 1)

/-- The `top` value (= number of pending nodes) after each call. -/
def stackTops : List StackOp → Int → List Int
  | [], _ => []
  | StackOp.push :: ops, top => (top + 1) :: stackTops ops (top + 1)
  | StackOp.pop :: ops, top => (top - 1) :: stackTops ops (top - 1)

theorem stackAccesses_bounded : ∀ (ops : List StackOp) (top0 : Int),
    0 ≤ top0 → top0 ≤ 1023 →
    (∀ v ∈ stackTops ops top0, 0 ≤ v ∧ v ≤ 1023) →
    ∀ i ∈ stackAccesses ops top0, 0 ≤ i ∧ i < stackSlots := by
  intro ops
  induction ops with
  | nil =>
    intro top0 _ _ _ i hi
    simp [stackAccesses] at hi
  | cons op rest ih =>
    intro top0 h0 h1023 htops i hi
    cases op with
    | push =>
      have hhead : 0 ≤ top0 + 1 ∧ top0 + 1 ≤ 1023 :=
        htops (top0 + 1) (by simp [stackTops])
      rcases List.mem_cons.mp hi with h | h
      · subst h
        exact ⟨by omega, by unfold stackSlots; omega⟩
      · exact ih (top0 + 1) (by omega) (by omega)
          (fun v hv => htops v (by simp [stackTops]; exact Or.inr hv)) i h
    | pop =>
      have hhead : 0 ≤ top0 - 1 ∧ top0 - 1 ≤ 1023 :=
        htops (top0 - 1) (by simp [stackTops])
      rcases List.mem_cons.mp hi with h | h
      · subst h
        exact ⟨by omega, by unfold stackSlots; omega⟩
      · exact ih (top0 - 1) (by omega) (by omega)
          (fun v hv => htops v (by simp [stackTops]; exact Or.inr hv)) i h

theorem stackAccesses_overflow : ∀ (ops : List StackOp) (top0 : Int),
    top0 ≤ 1023 →
    (∃ v ∈ stackTops ops top0, 1024 ≤ v) →
    ∃ i ∈ stackAccesses ops top0, (stackSlots : Int) ≤ i := by
  intro ops
  induction ops with
  | nil =>
    rintro top0 _ ⟨v, hv, -⟩
    simp [stackTops] at hv
  | cons op rest ih =>
    rintro top0 h1023 ⟨v, hv, hge⟩
    cases op with
    | push =>
      rcases List.mem_cons.mp (by simpa [stackTops] using hv) with h | h
      · refine ⟨top0 + 1, by simp [stackAccesses], ?_⟩
        unfold stackSlots
        omega
      · by_cases hcross : (1024 : Int) ≤ top0 + 1
        · exact ⟨top0 + 1, by simp [stackAccesses], by unfold stackSlots; omega⟩
        · obtain ⟨i, hi, hgei⟩ := ih (top0 + 1) (by omega) ⟨v, h, hge⟩
          exact ⟨i, by simp [stackAccesses]; exact Or.inr hi, hgei⟩
    | pop =>
      rcases List.mem_cons.mp (by simpa [stackTops] using hv) with h | h
      · exact absurd hge (by omega)
      · obtain ⟨i, hi, hgei⟩ := ih (top0 - 1) (by omega) ⟨v, h, hge⟩
        exact ⟨i, by simp [stackAccesses]; exact Or.inr hi, hgei⟩

/-- C9: with at most 1023 simultaneously pending nodes every access of
`Tree.push`/`Tree.pop` stays inside the 1024-slot array, and any call
sequence whose pending count exceeds 1023 performs an access at index
≥ 1024, past the end of the array. -/
theorem C9_stack_bounds :
    (∀ ops : List StackOp, (∀ v ∈ stackTops ops 0, 0 ≤ v ∧ v ≤ 1023) →
      ∀ i ∈ stackAccesses ops 0, 0 ≤ i ∧ i < stackSlots) ∧
    (∀ ops : List StackOp, (∃ v ∈ stackTops ops 0, 1024 ≤ v) →
      ∃ i ∈ stackAccesses ops 0, (stackSlots : Int) ≤ i) :=
  ⟨fun ops h => stackAccesses_bounded ops 0 (by omega) (by omega) h,
   fun ops h => stackAccesses_overflow ops 0 (by omega) h⟩

theorem stackTops_pushes : ∀ (n : Nat) (t : Int), 0 < n →
    (t + n) ∈ stackTops (List.replicate n StackOp.push) t := by
  intro n
  induction n with
  | zero => intro t h; omega
  | succ n ih =>
    intro t _
    show (t + (((n : Int)) + 1)) ∈ (t + 1) :: stackTops (List.replicate n StackOp.push) (t + 1)
    cases n with
    | zero => simp
    | succ m =>
      refine List.mem_cons_of_mem _ ?_
      have := ih (t + 1) (by omega)
      have harith : t + 1 + ((m : Int) + 1) = t + ((m : Int) + 1 + 1) := by ring
      rw [show ((Nat.succ m : Nat) : Int) = (m : Int) + 1 from by push_cast; ring] at this
      rw [harith] at this
      exact this

/-- C9 witness: a push/pop pair stays in bounds; 1024 consecutive
pushes index past the end. -/
theorem C9_witness :
    (∀ i ∈ stackAccesses [StackOp.push, StackOp.pop] 0, 0 ≤ i ∧ i < stackSlots) ∧
    (∃ i ∈ stackAccesses (List.replicate 1024 StackOp.push) 0, (stackSlots : Int) ≤ i) :=
  ⟨C9_stack_bounds.1 [StackOp.push, StackOp.pop] (by decide),
   C9_stack_bounds.2 (List.replicate 1024 StackOp.push)
     ⟨(0 : Int) + (1024 : Nat), stackTops_pushes 1024 0 (by omega), by norm_num⟩⟩

/-! ## C8: the two-pass writer in dry-run mode

Transcription of `type writer`, `type label` and the emission
operations `lnPrint`, `cJump`, `save`, `label` (the label-site
printer) and `restore`/`lrestore`.  Output is the list of emitted
strings; `indent` is a Go `int`. -/

structure SaveFlags where
  pos : Bool
  thPos : Bool

structure Writer where
  output : List String
  indent : Int
  hasCommit : Bool
  nLabels : Nat
  dryRun : Bool
  savedIndent : Int
  saveFlags : List SaveFlags

structure Label where
  id : Nat
  sid : Nat
  used : Bool
  savedBlockOpen : Bool

/-- `func (w *writer) lnPrint(format, a...)`: returns immediately when
`dryRun`; otherwise emits a newline, `indent` tabs and the text. -/
def Writer.lnPrint (w : Writer) (s : String) : Writer :=
  if w.dryRun then w
  else { w with output := w.output ++ [(("\n".pushn '\t' w.indent.toNat) ++ s)] }

/-- `func (w *label) label()`: `indent--; lnPrint("l%d:"); indent++`. -/
def Writer.labelSite (w : Writer) (l : Label) : Writer :=
  let w1 := { w with indent := w.indent - 1 }
  let w2 := w1.lnPrint ("l" ++ toString l.id ++ ":")
  { w2 with indent := w2.indent + 1 }

/-- `func (w *label) cJump(jumpIfTrue, format, a...)`: marks the label
used, then in dry mode returns before printing anything. -/
def Writer.cJump (w : Writer) (l : Label) (jumpIfTrue : Bool) (cond : String) :
    Writer × Label :=
  let l2 := { l with used := true }
  if w.dryRun then (w, l2)
  else
    let f := if jumpIfTrue then "if " ++ cond else "if !" ++ cond
    let w1 := w.lnPrint f
    let w2 := { w1 with output := w1.output ++ [" \x7b"] }
    let w3 := w2.lnPrint ("\tgoto l" ++ toString l.id)
    let w4 := w3.lnPrint "\x7d"
    (w4, l2)

/-- `func (w *label) save()`: reads `saveFlags[w.id]` and prints the
snapshot statement for the bits that are set (a no-op in dry mode,
since `lnPrint` is). -/
def Writer.saveOp (w : Writer) (l : Label) : Writer :=
  let save := w.saveFlags.getD l.id ⟨false, false⟩
  match save.pos, save.thPos with
  | true, true => w.lnPrint ("position" ++ toString l.sid ++ ", thunkPosition" ++
      toString l.sid ++ " := position, thunkPosition")
  | false, true => w.lnPrint ("thunkPosition" ++ toString l.sid ++ " := thunkPosition")
  | true, false => w.lnPrint ("position" ++ toString l.sid ++ " := position")
  | false, false => w

/-- `func (w *label) lrestore(label, savePos, saveThPos)`: prints the
label site of `other` if used, prints the restore statement, and in dry
mode ORs the restored bits into `saveFlags[w.id]` (each bit is written
only when currently false); finally closes a save block if one is
open. -/
def Writer.lrestore (w : Writer) (l : Label) (other : Option Label)
    (savePos saveThPos : Bool) : Writer × Label :=
  let w1 := match other with
    | some lab => if lab.used then w.labelSite lab else w
    | none => w
  let w2 := match savePos, saveThPos with
    | true, true => w1.lnPrint ("position, thunkPosition = position" ++
        toString l.sid ++ ", thunkPosition" ++ toString l.sid)
    | false, true => w1.lnPrint ("thunkPosition = thunkPosition" ++ toString l.sid)
    | true, false => w1.lnPrint ("position = position" ++ toString l.sid)
    | false, false => w1
  let old := w2.saveFlags.getD l.id ⟨false, false⟩
  let nf : SaveFlags := ⟨if old.pos then old.pos else savePos,
    if old.thPos then old.thPos else saveThPos⟩
  let w3 := if w2.dryRun then { w2 with saveFlags := w2.saveFlags.set l.id nf }
    else w2
  if l.savedBlockOpen then
    (({ w3 with indent := w3.indent - 1 }).lnPrint "\x7d",
     { l with savedBlockOpen := false })
  else (w3, l)

/-- `func (w *label) restore(savePos, saveThPos)` =
`w.lrestore(w, savePos, saveThPos)`. -/
def Writer.restoreOp (w : Writer) (l : Label) (savePos saveThPos : Bool) :
    Writer × Label :=
  w.lrestore l (some l) savePos saveThPos

theorem getD_set_self2 {α : Type} (l : List α) (i : Nat) (h : i < l.length)
    (v d : α) : (l.set i v).getD i d = v := by
  rw [List.getD_eq_getElem?_getD, List.getElem?_set]
  simp [h]

theorem getD_set_ne2 {α : Type} (l : List α) {i j : Nat} (h : i ≠ j)
    (v d : α) : (l.set i v).getD j d = l.getD j d := by
  rw [List.getD_eq_getElem?_getD, List.getElem?_set, List.getD_eq_getElem?_getD]
  simp [h]

theorem lnPrint_dry (w : Writer) (s : String) (hdry : w.dryRun = true) :
    w.lnPrint s = w := by
  unfold Writer.lnPrint
  rw [if_pos hdry]

theorem labelSite_dry (w : Writer) (l : Label) (hdry : w.dryRun = true) :
    w.labelSite l = w := by
  obtain ⟨o, ind, hc, nl, dr, si, sf⟩ := w
  simp only at hdry
  subst hdry
  simp only [Writer.labelSite, Writer.lnPrint, if_pos]
  simp [Writer.mk.injEq]

theorem restoreOp_dry (w : Writer) (l : Label) (savePos saveThPos : Bool)
    (hdry : w.dryRun = true) (hblock : l.savedBlockOpen = false) :
    w.restoreOp l savePos saveThPos
      = (Writer.mk w.output w.indent w.hasCommit w.nLabels w.dryRun w.savedIndent
          (w.saveFlags.set l.id
            (SaveFlags.mk
              (if (w.saveFlags.getD l.id ⟨false, false⟩).pos
                then (w.saveFlags.getD l.id ⟨false, false⟩).pos else savePos)
              (if (w.saveFlags.getD l.id ⟨false, false⟩).thPos
                then (w.saveFlags.getD l.id ⟨false, false⟩).thPos else saveThPos))),
         l) := by
  unfold Writer.restoreOp Writer.lrestore
  have hw1 : (match some l with
      | some lab => if lab.used = true then w.labelSite lab else w
      | none => w) = w := by
    show (if l.used = true then w.labelSite l else w) = w
    by_cases hu : l.used = true
    · rw [if_pos hu, labelSite_dry w l hdry]
    · rw [if_neg hu]
  rw [hw1]
  have hw2 : (match savePos, saveThPos with
      | true, true => w.lnPrint ("position, thunkPosition = position" ++
          toString l.sid ++ ", thunkPosition" ++ toString l.sid)
      | false, true => w.lnPrint ("thunkPosition = thunkPosition" ++ toString l.sid)
      | true, false => w.lnPrint ("position = position" ++ toString l.sid)
      | false, false => w) = w := by
    cases savePos <;> cases saveThPos <;>
      first
        | rfl
        | exact lnPrint_dry w _ hdry
  simp only [hw2, hdry, hblock, Bool.false_eq_true, if_true, if_false, ite_true,
    ite_false]

/-- C8: in dry-run mode no emission operation (`lnPrint`, `cJump`,
`save`, `restore`) appends any output; `lnPrint` and `save` change
nothing at all, `cJump` changes only the label's `used` mark, and
`restore` on a label without an open save block (the dry-pass
situation, since `saveBlock` is a no-op on the fresh all-false flags)
changes only `saveFlags[id]`, whose two bits only ever go from false
to true. -/
theorem C8_dry_run (w : Writer) (l : Label) (s cond : String)
    (jt savePos saveThPos : Bool)
    (hdry : w.dryRun = true) (hblock : l.savedBlockOpen = false) :
    w.lnPrint s = w ∧
    w.saveOp l = w ∧
    w.cJump l jt cond = (w, { l with used := true }) ∧
    ((w.restoreOp l savePos saveThPos).2 = l ∧
     (w.restoreOp l savePos saveThPos).1.output = w.output ∧
     (w.restoreOp l savePos saveThPos).1.indent = w.indent ∧
     (w.restoreOp l savePos saveThPos).1.hasCommit = w.hasCommit ∧
     (w.restoreOp l savePos saveThPos).1.nLabels = w.nLabels ∧
     (w.restoreOp l savePos saveThPos).1.dryRun = w.dryRun ∧
     (w.restoreOp l savePos saveThPos).1.savedIndent = w.savedIndent ∧
     (∀ i, i ≠ l.id →
       (w.restoreOp l savePos saveThPos).1.saveFlags.getD i ⟨false, false⟩
         = w.saveFlags.getD i ⟨false, false⟩) ∧
     (∀ i, ((w.saveFlags.getD i ⟨false, false⟩).pos = true →
         ((w.restoreOp l savePos saveThPos).1.saveFlags.getD i
           ⟨false, false⟩).pos = true) ∧
       ((w.saveFlags.getD i ⟨false, false⟩).thPos = true →
         ((w.restoreOp l savePos saveThPos).1.saveFlags.getD i
           ⟨false, false⟩).thPos = true))) := by
  have hres := restoreOp_dry w l savePos saveThPos hdry hblock
  refine ⟨lnPrint_dry w s hdry, ?_, ?_, ?_⟩
  · unfold Writer.saveOp
    cases hp : (w.saveFlags.getD l.id ⟨false, false⟩).pos <;>
      cases ht : (w.saveFlags.getD l.id ⟨false, false⟩).thPos <;>
      simp only [hp, ht] <;>
      first
        | rfl
        | exact lnPrint_dry w _ hdry
  · unfold Writer.cJump
    rw [if_pos hdry]
  · rw [hres]
    refine ⟨rfl, rfl, rfl, rfl, rfl, rfl, rfl, ?_, ?_⟩
    · intro i hi
      exact getD_set_ne2 _ (fun h => hi h.symm) _ _
    · intro i
      by_cases hi : i = l.id
      · by_cases hlen : l.id < w.saveFlags.length
        · rw [hi, getD_set_self2 _ _ hlen]
          constructor
          · intro h
            show (if (w.saveFlags.getD l.id ⟨false, false⟩).pos = true
              then (w.saveFlags.getD l.id ⟨false, false⟩).pos else savePos) = true
            rw [if_pos h]
            exact h
          · intro h
            show (if (w.saveFlags.getD l.id ⟨false, false⟩).thPos = true
              then (w.saveFlags.getD l.id ⟨false, false⟩).thPos else saveThPos) = true
            rw [if_pos h]
            exact h
        · rw [hi, List.set_eq_of_length_le (by omega)]
          exact ⟨fun h => h, fun h => h⟩
      · rw [getD_set_ne2 _ (fun h => hi h.symm) _ _]
        exact ⟨fun h => h, fun h => h⟩

/-- C8 witness: the dry-run theorem applied to a concrete writer in dry
mode with one fresh label. -/
theorem C8_witness :
    (Writer.mk [] 2 false 1 true 0 [⟨false, false⟩]).lnPrint "x"
        = Writer.mk [] 2 false 1 true 0 [⟨false, false⟩] ∧
    ((Writer.mk [] 2 false 1 true 0 [⟨false, false⟩]).restoreOp
        ⟨0, 0, false, false⟩ true true).1.output = [] :=
  ⟨(C8_dry_run (Writer.mk [] 2 false 1 true 0 [⟨false, false⟩])
      ⟨0, 0, false, false⟩ "x" "c" false true true rfl rfl).1,
   (C8_dry_run (Writer.mk [] 2 false 1 true 0 [⟨false, false⟩])
      ⟨0, 0, false, false⟩ "x" "c" false true true rfl rfl).2.2.2.2.1⟩

/-! ## The left-recursion pass (`checkRecursion`, lines 631–674) -/

/-- `rule.GetExpression()`: a rule with no expression behaves as `nilNode`. -/
def getExpression (e : Option Node) : Node := e.getD Node.nilT

/-- `ruleReached := make([]bool, len(t.rules))`, addressed by rule id. -/
abbrev Marks := Nat → Bool

def setMark (m : Marks) (i : Nat) (b : Bool) : Marks :=
  fun j => if j = i then b else m j

/-- The diagnostic `checkRecursion` prints for a re-entered rule
(`node.String()` of a rule node is its name). -/
def leftRecMsg (nm : String) : String :=
  "possible infinite left recursion in rule '" ++ nm ++ "'"

/-- `checkRecursion` (lines 634–670).  The result is
`(consumes, ruleReached after the call, diagnostics printed)`.  The
`TypeAlternate` loop returns false at the first non-consuming branch and
the `TypeSequence` loop returns true at the first consuming element, so
both are folds that stop updating state once decided.  The fuel only
bounds the recursion depth; the Go original terminates because a
re-entered rule short-circuits. -/
def checkRecursion (t : Tree) : Nat → Marks → Node → Bool × Marks × List String
  | 0, m, _ => (false, m, [])
  | fuel + 1, m, node =>
    match node with
    | Node.ruleN nm id expr =>
      if m id then (false, m, [leftRecMsg nm])
      else
        let r := checkRecursion t fuel (setMark m id true) (getExpression expr)
        (r.1, setMark r.2.1 id false, r.2.2)
    | Node.alternate es =>
      es.foldl (fun acc e =>
        if acc.1 then
          let r := checkRecursion t fuel acc.2.1 e
          (r.1, r.2.1, acc.2.2 ++ r.2.2)
        else acc) (true, m, [])
    | Node.sequence es =>
      es.foldl (fun acc e =>
        if acc.1 then acc
        else
          let r := checkRecursion t fuel acc.2.1 e
          (r.1, r.2.1, acc.2.2 ++ r.2.2)) (false, m, [])
    | Node.nameN nm =>
      match lookupS t.rules nm with
      | some r => checkRecursion t fuel m r
      | none => (false, m, [])
    | Node.plus es => checkRecursion t fuel m (es.headD Node.nilT)
    | Node.character s => (decide (0 < s.length), m, [])
    | Node.stringT s => (decide (0 < s.length), m, [])
    | Node.dot => (true, m, [])
    | Node.classT _ _ => (true, m, [])
    | _ => (false, m, [])

/-- The pass body: a fresh all-false `ruleReached`, then
`for _, rule := range t.rules { checkRecursion(rule) }`, collecting the
diagnostics in iteration order. -/
def leftRecursionPass (t : Tree) (fuel : Nat) : List String :=
  (t.rules.foldl (fun acc p =>
      let r := checkRecursion t fuel acc.1 p.2
      (r.2.1, acc.2 ++ r.2.2))
    ((fun _ => false), [])).2

theorem check_name (t : Tree) (fuel : Nat) (m : Marks) (nm : String)
    (r : Node) (h : lookupS t.rules nm = some r) :
    checkRecursion t (fuel + 1) m (Node.nameN nm) = checkRecursion t fuel m r := by
  show (match lookupS t.rules nm with
    | some r => checkRecursion t fuel m r
    | none => (false, m, [])) = _
  rw [h]

theorem check_name_none (t : Tree) (fuel : Nat) (m : Marks) (nm : String)
    (h : lookupS t.rules nm = none) :
    checkRecursion t (fuel + 1) m (Node.nameN nm) = (false, m, []) := by
  show (match lookupS t.rules nm with
    | some r => checkRecursion t fuel m r
    | none => (false, m, [])) = _
  rw [h]

theorem check_rule_marked (t : Tree) (fuel : Nat) (m : Marks) (nm : String)
    (id : Nat) (expr : Option Node) (h : m id = true) :
    checkRecursion t (fuel + 1) m (Node.ruleN nm id expr)
      = (false, m, [leftRecMsg nm]) := by
  show (if m id = true then (false, m, [leftRecMsg nm])
    else
      let r := checkRecursion t fuel (setMark m id true) (getExpression expr)
      (r.1, setMark r.2.1 id false, r.2.2)) = _
  rw [if_pos h]

theorem check_rule_unmarked (t : Tree) (fuel : Nat) (m : Marks) (nm : String)
    (id : Nat) (expr : Option Node) (h : m id = false) :
    checkRecursion t (fuel + 1) m (Node.ruleN nm id expr)
      = ((checkRecursion t fuel (setMark m id true) (getExpression expr)).1,
         setMark (checkRecursion t fuel (setMark m id true)
           (getExpression expr)).2.1 id false,
         (checkRecursion t fuel (setMark m id true) (getExpression expr)).2.2) := by
  show (if m id = true then (false, m, [leftRecMsg nm])
    else
      let r := checkRecursion t fuel (setMark m id true) (getExpression expr)
      (r.1, setMark r.2.1 id false, r.2.2)) = _
  rw [if_neg (by simp [h])]

theorem check_sequence (t : Tree) (fuel : Nat) (m : Marks) (es : List Node) :
    checkRecursion t (fuel + 1) m (Node.sequence es)
      = es.foldl (fun acc e =>
          if acc.1 then acc
          else
            let r := checkRecursion t fuel acc.2.1 e
            (r.1, r.2.1, acc.2.2 ++ r.2.2)) (false, m, []) := rfl

theorem foldl_marks (m : Marks)
    (f : Bool × Marks × List String → Node → Bool × Marks × List String)
    (hf : ∀ acc e, (f acc e).2.1 = acc.2.1) :
    ∀ (es : List Node) (acc : Bool × Marks × List String),
    acc.2.1 = m → (es.foldl f acc).2.1 = m := by
  intro es
  induction es with
  | nil => intro acc h; exact h
  | cons e es ih =>
    intro acc h
    rw [List.foldl_cons]
    exact ih _ (by rw [hf]; exact h)

theorem foldl_out_mem
    (f : Bool × Marks × List String → Node → Bool × Marks × List String)
    (hf : ∀ acc e, ∃ s, (f acc e).2.2 = acc.2.2 ++ s) :
    ∀ (es : List Node) (acc : Bool × Marks × List String) (x : String),
    x ∈ acc.2.2 → x ∈ (es.foldl f acc).2.2 := by
  intro es
  induction es with
  | nil => intro acc x hx; exact hx
  | cons e es ih =>
    intro acc x hx
    rw [List.foldl_cons]
    refine ih _ x ?_
    obtain ⟨s, hs⟩ := hf acc e
    rw [hs]
    exact List.mem_append_left s hx

/-- `checkRecursion` restores `ruleReached` on exit: the marks component
of the result is the marks it was started with. -/
theorem checkRecursion_marks (t : Tree) :
    ∀ (fuel : Nat) (m : Marks) (node : Node),
    (checkRecursion t fuel m node).2.1 = m := by
  intro fuel
  induction fuel with
  | zero => intro m node; rfl
  | succ fuel ih =>
    intro m node
    cases node with
    | ruleN nm id expr =>
      by_cases h : m id = true
      · rw [check_rule_marked t fuel m nm id expr h]
      · rw [Bool.not_eq_true] at h
        rw [check_rule_unmarked t fuel m nm id expr h]
        show setMark (checkRecursion t fuel (setMark m id true)
          (getExpression expr)).2.1 id false = m
        rw [ih]
        funext j
        show (if j = id then false else (if j = id then true else m j)) = m j
        by_cases hj : j = id
        · rw [if_pos hj, hj]
          exact h.symm
        · rw [if_neg hj, if_neg hj]
    | alternate es =>
      show (es.foldl _ (true, m, [])).2.1 = m
      refine foldl_marks m _ ?_ es (true, m, []) rfl
      intro acc e
      dsimp only
      split
      · exact ih acc.2.1 e
      · rfl
    | sequence es =>
      show (es.foldl _ (false, m, [])).2.1 = m
      refine foldl_marks m _ ?_ es (false, m, []) rfl
      intro acc e
      dsimp only
      split
      · rfl
      · exact ih acc.2.1 e
    | nameN nm =>
      cases hl : lookupS t.rules nm with
      | some r =>
        rw [check_name t fuel m nm r hl]
        exact ih m r
      | none => rw [check_name_none t fuel m nm hl]
    | plus es => exact ih m (es.headD Node.nilT)
    | dot => rfl
    | character s => rfl
    | stringT s => rfl
    | classT s cl => rfl
    | predicate s => rfl
    | commitT => rfl
    | beginT => rfl
    | endT => rfl
    | actionN tx i => rfl
    | unorderedAlternate es => rfl
    | peekFor es => rfl
    | peekNot es => rfl
    | query es => rfl
    | star es => rfl
    | nilT => rfl

theorem pass_out_mono (t : Tree) (fuel : Nat) :
    ∀ (rules : List (String × Node)) (m : Marks) (out : List String),
    ∃ s, (rules.foldl (fun acc p =>
        let r := checkRecursion t fuel acc.1 p.2
        (r.2.1, acc.2 ++ r.2.2)) (m, out)).2 = out ++ s := by
  intro rules
  induction rules with
  | nil => intro m out; exact ⟨[], (List.append_nil out).symm⟩
  | cons q rules ih =>
    intro m out
    rw [List.foldl_cons]
    obtain ⟨s, hs⟩ := ih (checkRecursion t fuel m q.2).2.1
      (out ++ (checkRecursion t fuel m q.2).2.2)
    refine ⟨(checkRecursion t fuel m q.2).2.2 ++ s, ?_⟩
    show (rules.foldl _ ((checkRecursion t fuel m q.2).2.1,
      out ++ (checkRecursion t fuel m q.2).2.2)).2 = _
    rw [hs, List.append_assoc]

/-- Every rule in the list is visited by the pass with the all-false marks
it publishes, so its own diagnostics survive into the final output. -/
theorem pass_mem (t : Tree) (fuel : Nat) :
    ∀ (rules : List (String × Node)) (m : Marks) (out : List String)
      (p : String × Node), p ∈ rules →
    ∀ x, x ∈ (checkRecursion t fuel m p.2).2.2 →
    x ∈ (rules.foldl (fun acc p =>
        let r := checkRecursion t fuel acc.1 p.2
        (r.2.1, acc.2 ++ r.2.2)) (m, out)).2 := by
  intro rules
  induction rules with
  | nil =>
    intro m out p hp
    exact absurd hp (List.not_mem_nil p)
  | cons q rules ih =>
    intro m out p hp x hx
    rw [List.foldl_cons]
    have hm := checkRecursion_marks t fuel m q.2
    rcases List.mem_cons.mp hp with h | h
    · subst h
      obtain ⟨s, hs⟩ := pass_out_mono t fuel rules
        (checkRecursion t fuel m p.2).2.1
        (out ++ (checkRecursion t fuel m p.2).2.2)
      show x ∈ (rules.foldl _ ((checkRecursion t fuel m p.2).2.1,
        out ++ (checkRecursion t fuel m p.2).2.2)).2
      rw [hs]
      exact List.mem_append_left s (List.mem_append_right out hx)
    · show x ∈ (rules.foldl _ ((checkRecursion t fuel m q.2).2.1,
        out ++ (checkRecursion t fuel m q.2).2.2)).2
      rw [hm]
      exact ih m (out ++ (checkRecursion t fuel m q.2).2.2) p h x hx

/-- The head position of an expression is a reference to rule `B`: the
expression is `Name B` itself or a sequence starting with `Name B`. -/
def headRefTo (expr : Option Node) (B : String) : Prop :=
  getExpression expr = Node.nameN B ∨
  ∃ rest, getExpression expr = Node.sequence (Node.nameN B :: rest)

/-- A head-reference chain from an expression back to rule `R`: the chain
records the intermediate rules (name, id, expression) visited by `Name`
links, the last of which head-references `R` itself. -/
def ExprChain (t : Tree) (R : String) :
    Option Node → List (String × Nat × Option Node) → Prop
  | expr, [] => headRefTo expr R
  | expr, c :: cs =>
    headRefTo expr c.1 ∧
    lookupS t.rules c.1 = some (Node.ruleN c.1 c.2.1 c.2.2) ∧
    ExprChain t R c.2.2 cs

/-- Descending a head-reference chain with the target rule already
marked prints `leftRecMsg R`, provided the intermediate rules are
distinct, unmarked, and different from the target. -/
theorem chain_emits_expr (t : Tree) (R : String) (idR : Nat)
    (exprR : Option Node)
    (hR : lookupS t.rules R = some (Node.ruleN R idR exprR)) :
    ∀ (cs : List (String × Nat × Option Node)) (expr : Option Node)
      (m : Marks) (fuel : Nat),
    m idR = true →
    ExprChain t R expr cs →
    (∀ c ∈ cs, m c.2.1 = false ∧ c.2.1 ≠ idR) →
    cs.Pairwise (fun a b => a.2.1 ≠ b.2.1) →
    5 * (cs.length + 1) ≤ fuel →
    leftRecMsg R ∈ (checkRecursion t fuel m (getExpression expr)).2.2 := by
  intro cs
  induction cs with
  | nil =>
    intro expr m fuel hm hch _ _ hfuel
    obtain ⟨f, rfl⟩ : ∃ f, fuel = f + 5 := ⟨fuel - 5, by omega⟩
    rcases hch with h | ⟨rest, h⟩
    · rw [h]
      have e1 : f + 5 = (f + 4) + 1 := by omega
      rw [e1, check_name t (f + 4) m R _ hR]
      have e2 : f + 4 = (f + 3) + 1 := by omega
      rw [e2, check_rule_marked t (f + 3) m R idR exprR hm]
      exact List.Mem.head _
    · rw [h]
      have e1 : f + 5 = (f + 4) + 1 := by omega
      rw [e1, check_sequence t (f + 4) m (Node.nameN R :: rest)]
      rw [List.foldl_cons]
      refine foldl_out_mem _ ?_ rest _ (leftRecMsg R) ?_
      · intro acc e
        dsimp only
        split
        · exact ⟨[], (List.append_nil acc.2.2).symm⟩
        · exact ⟨(checkRecursion t (f + 4) acc.2.1 e).2.2, rfl⟩
      · show leftRecMsg R ∈ [] ++ (checkRecursion t (f + 4) m (Node.nameN R)).2.2
        have e2 : f + 4 = (f + 3) + 1 := by omega
        rw [e2, check_name t (f + 3) m R _ hR]
        have e3 : f + 3 = (f + 2) + 1 := by omega
        rw [e3, check_rule_marked t (f + 2) m R idR exprR hm]
        exact List.Mem.head _
  | cons c cs ih =>
    obtain ⟨nm, id, e'⟩ := c
    intro expr m fuel hm hch hcs hpw hfuel
    obtain ⟨hhead, hlook, hrest⟩ := hch
    have hid := hcs _ (List.Mem.head _)
    have hpc := List.pairwise_cons.mp hpw
    have hm' : setMark m id true idR = true := by
      show (if idR = id then true else m idR) = true
      split
      · rfl
      · exact hm
    have hcs' : ∀ x ∈ cs, setMark m id true x.2.1 = false ∧ x.2.1 ≠ idR := by
      intro x hx
      have h1 := hcs x (List.mem_cons_of_mem _ hx)
      have h2 : x.2.1 ≠ id := Ne.symm (hpc.1 x hx)
      refine ⟨?_, h1.2⟩
      show (if x.2.1 = id then true else m x.2.1) = false
      rw [if_neg h2]
      exact h1.1
    have hfl : 5 * (cs.length + 1) + 5 ≤ fuel := by
      simp only [List.length_cons] at hfuel
      omega
    rcases hhead with h | ⟨rest, h⟩
    · rw [h]
      obtain ⟨f, rfl⟩ : ∃ f, fuel = f + 2 := ⟨fuel - 2, by omega⟩
      have e1 : f + 2 = (f + 1) + 1 := by omega
      rw [e1, check_name t (f + 1) m nm _ hlook]
      rw [check_rule_unmarked t f m nm id e' hid.1]
      show leftRecMsg R ∈
        (checkRecursion t f (setMark m id true) (getExpression e')).2.2
      exact ih e' (setMark m id true) f hm' hrest hcs' hpc.2 (by omega)
    · rw [h]
      obtain ⟨f, rfl⟩ : ∃ f, fuel = f + 4 := ⟨fuel - 4, by omega⟩
      have e1 : f + 4 = (f + 3) + 1 := by omega
      rw [e1, check_sequence t (f + 3) m (Node.nameN nm :: rest)]
      rw [List.foldl_cons]
      refine foldl_out_mem _ ?_ rest _ (leftRecMsg R) ?_
      · intro acc e
        dsimp only
        split
        · exact ⟨[], (List.append_nil acc.2.2).symm⟩
        · exact ⟨(checkRecursion t (f + 3) acc.2.1 e).2.2, rfl⟩
      · show leftRecMsg R ∈ [] ++ (checkRecursion t (f + 3) m (Node.nameN nm)).2.2
        have e2 : f + 3 = (f + 2) + 1 := by omega
        rw [e2, check_name t (f + 2) m nm _ hlook]
        have e3 : f + 2 = (f + 1) + 1 := by omega
        rw [e3, check_rule_unmarked t (f + 1) m nm id e' hid.1]
        show leftRecMsg R ∈
          [] ++ (checkRecursion t (f + 1) (setMark m id true) (getExpression e')).2.2
        rw [List.nil_append]
        exact ih e' (setMark m id true) (f + 1) hm' hrest hcs' hpc.2 (by omega)

/-- C3: for every rule `R` whose definition is left-recursive — the head
position of its expression references `R` again, either directly or
through a chain of `Name` references to distinct intermediate rules —
the left-recursion pass prints the diagnostic
`possible infinite left recursion in rule 'R'` (given recursion fuel to
descend the chain once). -/
theorem C3_left_recursion (t : Tree) (R : String) (idR : Nat)
    (exprR : Option Node) (cs : List (String × Nat × Option Node)) (fuel : Nat)
    (hmem : (R, Node.ruleN R idR exprR) ∈ t.rules)
    (hR : lookupS t.rules R = some (Node.ruleN R idR exprR))
    (hch : ExprChain t R exprR cs)
    (hcs : ∀ c ∈ cs, c.2.1 ≠ idR)
    (hpw : cs.Pairwise (fun a b => a.2.1 ≠ b.2.1))
    (hfuel : 5 * (cs.length + 1) + 1 ≤ fuel) :
    leftRecMsg R ∈ leftRecursionPass t fuel := by
  obtain ⟨f, rfl⟩ : ∃ f, fuel = f + 1 := ⟨fuel - 1, by omega⟩
  refine pass_mem t (f + 1) t.rules (fun _ => false) []
    (R, Node.ruleN R idR exprR) hmem (leftRecMsg R) ?_
  show leftRecMsg R ∈
    (checkRecursion t (f + 1) (fun _ => false) (Node.ruleN R idR exprR)).2.2
  rw [check_rule_unmarked t f (fun _ => false) R idR exprR rfl]
  show leftRecMsg R ∈
    (checkRecursion t f (setMark (fun _ => false) idR true)
      (getExpression exprR)).2.2
  exact chain_emits_expr t R idR exprR hR cs exprR
    (setMark (fun _ => false) idR true) f
    (by show (if idR = idR then true else false) = true; rw [if_pos rfl])
    hch
    (fun c hc => ⟨by
        show (if c.2.1 = idR then true else false) = false
        rw [if_neg (hcs c hc)],
      hcs c hc⟩)
    hpw
    (by omega)

/-- C3 witness: the pass flags the directly left-recursive grammar
`R <- R 'a'`. -/
theorem C3_witness :
    leftRecMsg "R" ∈ leftRecursionPass
      (Tree.mk [("R", Node.ruleN "R" 0 (some (Node.sequence
          [Node.nameN "R", Node.character [97]])))]
        [] 1 [] [] [] [] false false) 10 :=
  C3_left_recursion _ "R" 0
    (some (Node.sequence [Node.nameN "R", Node.character [97]])) [] 10
    (List.Mem.head _)
    (by rw [lookupS_cons]; rw [if_pos rfl])
    (Or.inr ⟨[Node.character [97]], rfl⟩)
    (fun c hc => absurd hc (List.not_mem_nil c))
    List.Pairwise.nil
    (by decide)

/-! ## Undefined rules: placeholder creation and nil emission (lines
555–571 and 1505–1544) -/

/-- `node.String()` of a rule node is its name. -/
def ruleName : Node → String
  | Node.ruleN nm _ _ => nm
  | _ => ""

/-- `r.name == ""`: the entry `AddName` put into `t.rules` for a
referenced name is `&rule\x7b\x7d`, which has an empty name. -/
def isPlaceholder : Node → Bool
  | Node.ruleN nm _ _ => nm == ""
  | _ => false

/-- `rule.GetExpression() == nilNode`: true when the expression is unset
(`GetExpression` returns the shared `nilNode`) or is literally `nilNode`. -/
def isNilExpr : Option Node → Bool
  | none => true
  | some Node.nilT => true
  | _ => false

/-- One step of the first `Compile` loop:
`t.rules[rule.String()] = rule` for each rule node of the front list. -/
def regStep (rs : List (String × Node)) (n : Node) : List (String × Node) :=
  match n with
  | Node.ruleN nm i e => setS rs nm (Node.ruleN nm i e)
  | _ => rs

/-- The first `Compile` loop (lines 555–563): register every defined
rule in the map, overwriting parse-time placeholders of defined names. -/
def registerRules (t : Tree) : Tree :=
  Tree.mk (t.listL.foldl regStep t.rules) t.rulesCount t.ruleId t.listL
    t.classes t.defines t.switchExcl t.inline t.switchFlag

/-- One step of the placeholder loop (lines 564–571): a map entry whose
rule still has an empty name gets a fresh rule with the referenced name,
the next id and no expression, recorded in the map and appended to the
node list. -/
def phStep (t : Tree) (p : String × Node) : Tree :=
  if isPlaceholder p.2 then
    Tree.mk (setS t.rules p.1 (Node.ruleN p.1 t.ruleId none)) t.rulesCount
      (t.ruleId + 1) (t.listL ++ [Node.ruleN p.1 t.ruleId none])
      t.classes t.defines t.switchExcl t.inline t.switchFlag
  else t

def addPlaceholders (t : Tree) : Tree := t.rules.foldl phStep t

/-- The rule nodes the placeholder loop appends, starting from id `i`. -/
def phRules : List (String × Node) → Nat → List Node
  | [], _ => []
  | p :: ps, i =>
    if isPlaceholder p.2 then Node.ruleN p.1 i none :: phRules ps (i + 1)
    else phRules ps i

def undefMsg (nm : String) : String :=
  "rule '" ++ nm ++ "' used but not defined"

def unusedMsg (nm : String) : String :=
  "rule '" ++ nm ++ "' defined but not used"

/-- One iteration of the real compile pass (lines 1506–1543), restricted
to the rules-table entry and diagnostics it produces.  The accumulator is
`(entries, diagnostics, a label was already allocated)`; the last
component models `ko.id != 0`, since the loop's `ko` is label 0 exactly
when no label was allocated earlier in the pass (`setDry(false)` resets
the counter). -/
def rpStep (rc : List (String × Nat)) (inl : Bool)
    (acc : List (Option String) × List String × Bool) (n : Node) :
    List (Option String) × List String × Bool :=
  match n with
  | Node.ruleN nm _ e =>
    if isNilExpr e then
      (acc.1 ++ [none], acc.2.1 ++ [undefMsg nm], acc.2.2)
    else
      match lookupS rc nm with
      | none => (acc.1 ++ [some nm], acc.2.1 ++ [unusedMsg nm], true)
      | some count =>
        if inl && count == 1 && acc.2.2 then (acc.1 ++ [none], acc.2.1, true)
        else (acc.1 ++ [some nm], acc.2.1, true)
  | _ => acc

/-- The real compile pass over the node list: the emitted rules-table
entries (`none` = `nil,`, `some nm` = the function for rule `nm`) and the
diagnostics printed to the error stream. -/
def realPass (t : Tree) : List (Option String) × List String :=
  ((t.listL.foldl (rpStep t.rulesCount t.inline) ([], [], false)).1,
   (t.listL.foldl (rpStep t.rulesCount t.inline) ([], [], false)).2.1)

theorem lookupS_setS_ne {α : Type} (m : List (String × α)) (k : String)
    (v : α) (k' : String) (h : ¬ k' = k) :
    lookupS (setS m k v) k' = lookupS m k' := by
  unfold setS
  split
  · rw [lookupS_map_set m k v k', if_neg h]
  · show lookupS (m ++ [(k, v)]) k' = lookupS m k'
    unfold lookupS
    rw [List.find?_append]
    have hkv : List.find? (fun p => p.1 == k') [(k, v)] = none := by
      rw [List.find?_cons_of_neg]
      · rfl
      · simp only [beq_iff_eq]
        exact fun hh => h hh.symm
    rw [hkv]
    cases List.find? (fun p => p.1 == k') m <;> rfl

theorem lookup_register_fold : ∀ (ns : List Node) (rs : List (String × Node))
    (U : String), (∀ n ∈ ns, ruleName n ≠ U) →
    lookupS (List.foldl regStep rs ns) U = lookupS rs U := by
  intro ns
  induction ns with
  | nil => intro rs U _; rw [List.foldl_nil]
  | cons n ns ih =>
    intro rs U h
    rw [List.foldl_cons]
    rw [ih _ U (fun x hx => h x (List.mem_cons_of_mem _ hx))]
    cases n
    case ruleN nm i e =>
      exact lookupS_setS_ne rs nm _ U (fun hh => h _ (List.Mem.head _) hh.symm)
    all_goals rfl

theorem addPlaceholders_fold : ∀ (ps : List (String × Node)) (t : Tree),
    ∃ rs k, List.foldl phStep t ps
      = Tree.mk rs t.rulesCount k (t.listL ++ phRules ps t.ruleId)
          t.classes t.defines t.switchExcl t.inline t.switchFlag := by
  intro ps
  induction ps with
  | nil =>
    intro t
    refine ⟨t.rules, t.ruleId, ?_⟩
    rw [List.foldl_nil]
    show t = _
    rw [show phRules [] t.ruleId = [] from rfl, List.append_nil]
  | cons p ps ih =>
    intro t
    rw [List.foldl_cons]
    by_cases hp : isPlaceholder p.2 = true
    · have hstep : phStep t p
          = Tree.mk (setS t.rules p.1 (Node.ruleN p.1 t.ruleId none))
            t.rulesCount (t.ruleId + 1)
            (t.listL ++ [Node.ruleN p.1 t.ruleId none])
            t.classes t.defines t.switchExcl t.inline t.switchFlag := by
        show (if isPlaceholder p.2 = true then _ else _) = _
        rw [if_pos hp]
      rw [hstep]
      obtain ⟨rs, k, hk⟩ := ih
        (Tree.mk (setS t.rules p.1 (Node.ruleN p.1 t.ruleId none))
          t.rulesCount (t.ruleId + 1)
          (t.listL ++ [Node.ruleN p.1 t.ruleId none])
          t.classes t.defines t.switchExcl t.inline t.switchFlag)
      refine ⟨rs, k, ?_⟩
      rw [hk]
      dsimp only
      rw [List.append_assoc]
      rw [show phRules (p :: ps) t.ruleId
          = Node.ruleN p.1 t.ruleId none :: phRules ps (t.ruleId + 1) from by
        show (if isPlaceholder p.2 = true then _ else _) = _
        rw [if_pos hp]]
      rfl
    · have hstep : phStep t p = t := by
        show (if isPlaceholder p.2 = true then _ else _) = _
        rw [if_neg hp]
      rw [hstep]
      obtain ⟨rs, k, hk⟩ := ih t
      refine ⟨rs, k, ?_⟩
      rw [hk]
      rw [show phRules (p :: ps) t.ruleId = phRules ps t.ruleId from by
        show (if isPlaceholder p.2 = true then _ else _) = _
        rw [if_neg hp]]

theorem phRules_shape : ∀ (ps : List (String × Node)) (i : Nat) (n : Node),
    n ∈ phRules ps i → ∃ nm j, n = Node.ruleN nm j none := by
  intro ps
  induction ps with
  | nil => intro i n hn; exact absurd hn (List.not_mem_nil n)
  | cons p ps ih =>
    intro i n hn
    by_cases hp : isPlaceholder p.2 = true
    · rw [show phRules (p :: ps) i
          = Node.ruleN p.1 i none :: phRules ps (i + 1) from by
        show (if isPlaceholder p.2 = true then _ else _) = _
        rw [if_pos hp]] at hn
      rcases List.mem_cons.mp hn with h | h
      · exact ⟨p.1, i, h⟩
      · exact ih (i + 1) n h
    · rw [show phRules (p :: ps) i = phRules ps i from by
        show (if isPlaceholder p.2 = true then _ else _) = _
        rw [if_neg hp]] at hn
      exact ih i n hn

theorem phRules_mem : ∀ (ps : List (String × Node)) (i : Nat)
    (p : String × Node), p ∈ ps → isPlaceholder p.2 = true →
    ∃ j, Node.ruleN p.1 j none ∈ phRules ps i := by
  intro ps
  induction ps with
  | nil => intro i p hp; exact absurd hp (List.not_mem_nil p)
  | cons q ps ih =>
    intro i p hp hpl
    rcases List.mem_cons.mp hp with h | h
    · subst h
      refine ⟨i, ?_⟩
      rw [show phRules (p :: ps) i
          = Node.ruleN p.1 i none :: phRules ps (i + 1) from by
        show (if isPlaceholder p.2 = true then _ else _) = _
        rw [if_pos hpl]]
      exact List.Mem.head _
    · by_cases hq : isPlaceholder q.2 = true
      · obtain ⟨j, hj⟩ := ih (i + 1) p h hpl
        refine ⟨j, ?_⟩
        rw [show phRules (q :: ps) i
            = Node.ruleN q.1 i none :: phRules ps (i + 1) from by
          show (if isPlaceholder q.2 = true then _ else _) = _
          rw [if_pos hq]]
        exact List.mem_cons_of_mem _ hj
      · obtain ⟨j, hj⟩ := ih i p h hpl
        refine ⟨j, ?_⟩
        rw [show phRules (q :: ps) i = phRules ps i from by
          show (if isPlaceholder q.2 = true then _ else _) = _
          rw [if_neg hq]]
        exact hj

/-- With inlining off, every listed rule with a real expression yields a
`some`-entry (its function), possibly with an `unused` diagnostic. -/
theorem rp_emits (rc : List (String × Nat)) :
    ∀ (A : List Node) (acc : List (Option String) × List String × Bool),
    (∀ n ∈ A, ∃ nm i e, n = Node.ruleN nm i e ∧ isNilExpr e = false) →
    ∃ d b, List.foldl (rpStep rc false) acc A
      = (acc.1 ++ A.map (fun n => some (ruleName n)), acc.2.1 ++ d, b) := by
  intro A
  induction A with
  | nil =>
    intro acc _
    refine ⟨[], acc.2.2, ?_⟩
    rw [List.foldl_nil, List.map_nil, List.append_nil, List.append_nil]
  | cons n A ih =>
    intro acc h
    obtain ⟨nm, i, e, hn, he⟩ := h n (List.Mem.head _)
    subst hn
    rw [List.foldl_cons]
    have hni : ¬(isNilExpr e = true) := by
      rw [he]
      exact Bool.false_ne_true
    cases hl : lookupS rc nm with
    | none =>
      have hstep : rpStep rc false acc (Node.ruleN nm i e)
          = (acc.1 ++ [some nm], acc.2.1 ++ [unusedMsg nm], true) := by
        simp only [rpStep]
        rw [if_neg hni, hl]
      rw [hstep]
      obtain ⟨d, b, hd⟩ := ih _ (fun x hx => h x (List.mem_cons_of_mem _ hx))
      refine ⟨unusedMsg nm :: d, b, ?_⟩
      rw [hd]
      dsimp only
      rw [List.append_assoc, List.append_assoc, List.map_cons]
      rfl
    | some c =>
      have hstep : rpStep rc false acc (Node.ruleN nm i e)
          = (acc.1 ++ [some nm], acc.2.1, true) := by
        simp only [rpStep]
        rw [if_neg hni, hl]
        show (if (false && (c == 1) && acc.2.2) = true
          then (acc.1 ++ [none], acc.2.1, true)
          else (acc.1 ++ [some nm], acc.2.1, true)) = _
        rw [if_neg (by simp)]
      rw [hstep]
      obtain ⟨d, b, hd⟩ := ih _ (fun x hx => h x (List.mem_cons_of_mem _ hx))
      refine ⟨d, b, ?_⟩
      rw [hd]
      dsimp only
      rw [List.append_assoc, List.map_cons]
      rfl

/-- Every expressionless rule yields a `nil,` entry and an
`used but not defined` diagnostic. -/
theorem rp_nils (rc : List (String × Nat)) (inl : Bool) :
    ∀ (B : List Node) (acc : List (Option String) × List String × Bool),
    (∀ n ∈ B, ∃ nm j, n = Node.ruleN nm j none) →
    List.foldl (rpStep rc inl) acc B
      = (acc.1 ++ List.replicate B.length none,
         acc.2.1 ++ B.map (fun n => undefMsg (ruleName n)), acc.2.2) := by
  intro B
  induction B with
  | nil =>
    intro acc _
    rw [List.foldl_nil, List.length_nil, List.replicate_zero, List.map_nil,
      List.append_nil, List.append_nil]
  | cons n B ih =>
    intro acc h
    obtain ⟨nm, j, hn⟩ := h n (List.Mem.head _)
    subst hn
    rw [List.foldl_cons]
    rw [show rpStep rc inl acc (Node.ruleN nm j none)
        = (acc.1 ++ [none], acc.2.1 ++ [undefMsg nm], acc.2.2) from rfl]
    rw [ih _ (fun x hx => h x (List.mem_cons_of_mem _ hx))]
    dsimp only
    rw [List.append_assoc, List.append_assoc, List.length_cons, List.map_cons,
      List.replicate_succ]
    rfl

/-- C7: a rule name `U` that is referenced (its map entry is still the
nameless placeholder `AddName` created) but never defined still lets
compilation proceed: the real pass prints `rule 'U' used but not
defined`, the emitted rules table holds a `nil` entry for it, and — with
inlining off — every rule of the grammar list is still emitted as its
own function, the table being exactly those functions followed by one
`nil` per undefined name. -/
theorem C7_undefined_rules (t : Tree) (U : String) (uid : Nat)
    (uex : Option Node)
    (hinl : t.inline = false)
    (hU : lookupS t.rules U = some (Node.ruleN "" uid uex))
    (hndef : ∀ n ∈ t.listL, ruleName n ≠ U)
    (hlist : ∀ n ∈ t.listL, ∃ nm i e, n = Node.ruleN nm i e ∧ isNilExpr e = false) :
    undefMsg U ∈ (realPass (addPlaceholders (registerRules t))).2 ∧
    (none : Option String) ∈ (realPass (addPlaceholders (registerRules t))).1 ∧
    (realPass (addPlaceholders (registerRules t))).1
      = t.listL.map (fun n => some (ruleName n))
        ++ List.replicate (phRules (registerRules t).rules t.ruleId).length none := by
  have hL : (registerRules t).listL = t.listL := rfl
  have hC : (registerRules t).rulesCount = t.rulesCount := rfl
  have hI : (registerRules t).inline = t.inline := rfl
  have hId : (registerRules t).ruleId = t.ruleId := rfl
  have hU1 : lookupS (registerRules t).rules U = some (Node.ruleN "" uid uex) := by
    show lookupS (t.listL.foldl regStep t.rules) U = _
    rw [lookup_register_fold t.listL t.rules U hndef]
    exact hU
  have hUm : (U, Node.ruleN "" uid uex) ∈ (registerRules t).rules := by
    unfold lookupS at hU1
    obtain ⟨p, hp1, hp2⟩ := Option.map_eq_some'.mp hU1
    have hmem := List.mem_of_find?_eq_some hp1
    have hpred := List.find?_some hp1
    have hp1eq : p.1 = U := by simpa using hpred
    obtain ⟨a, b⟩ := p
    have ha : a = U := hp1eq
    subst ha
    have hb : b = Node.ruleN "" uid uex := hp2
    subst hb
    exact hmem
  obtain ⟨j, hj⟩ := phRules_mem (registerRules t).rules (registerRules t).ruleId
    (U, Node.ruleN "" uid uex) hUm rfl
  rw [hId] at hj
  obtain ⟨rs, k, ht2⟩ := addPlaceholders_fold (registerRules t).rules
    (registerRules t)
  rw [show addPlaceholders (registerRules t)
      = List.foldl phStep (registerRules t) (registerRules t).rules from rfl,
    ht2]
  dsimp only [realPass]
  rw [hL, hC, hI, hId, hinl]
  rw [List.foldl_append]
  obtain ⟨d, b, hA⟩ := rp_emits t.rulesCount t.listL ([], [], false) hlist
  rw [hA]
  dsimp only
  rw [rp_nils t.rulesCount false (phRules (registerRules t).rules t.ruleId) _
    (fun n hn => phRules_shape (registerRules t).rules t.ruleId n hn)]
  dsimp only
  refine ⟨?_, ?_, rfl⟩
  · refine List.mem_append_right d ?_
    exact List.mem_map.mpr ⟨Node.ruleN U j none, hj, rfl⟩
  · refine List.mem_append_right _ ?_
    refine List.mem_replicate.mpr ⟨?_, rfl⟩
    exact (List.length_pos.mpr (List.ne_nil_of_mem hj)).ne'

/-- C7 witness: a grammar whose single rule `A` references the undefined
name `U`. -/
theorem C7_witness :
    undefMsg "U" ∈ (realPass (addPlaceholders (registerRules
      (Tree.mk [("U", Node.ruleN "" 0 none)] [("A", 1)] 1
        [Node.ruleN "A" 0 (some (Node.nameN "U"))] [] [] [] false false)))).2 ∧
    (none : Option String) ∈ (realPass (addPlaceholders (registerRules
      (Tree.mk [("U", Node.ruleN "" 0 none)] [("A", 1)] 1
        [Node.ruleN "A" 0 (some (Node.nameN "U"))] [] [] [] false false)))).1 :=
  ⟨(C7_undefined_rules
      (Tree.mk [("U", Node.ruleN "" 0 none)] [("A", 1)] 1
        [Node.ruleN "A" 0 (some (Node.nameN "U"))] [] [] [] false false)
      "U" 0 none rfl rfl
      (fun n hn => by rw [List.mem_singleton.mp hn]; decide)
      (fun n hn => by
        rw [List.mem_singleton.mp hn]
        exact ⟨"A", 0, some (Node.nameN "U"), rfl, rfl⟩)).1,
   (C7_undefined_rules
      (Tree.mk [("U", Node.ruleN "" 0 none)] [("A", 1)] 1
        [Node.ruleN "A" 0 (some (Node.nameN "U"))] [] [] [] false false)
      "U" 0 none rfl rfl
      (fun n hn => by rw [List.mem_singleton.mp hn]; decide)
      (fun n hn => by
        rw [List.mem_singleton.mp hn]
        exact ⟨"A", 0, some (Node.nameN "U"), rfl, rfl⟩)).2.1⟩

/-! ## The alternate-to-unordered rewrite (lines 769–807) -/

def isNilNode : Node → Bool
  | Node.nilT => true
  | _ => false

/-- The guarded branch the rewrite builds: a sequence of a `PeekFor` on
the branch's first-class token followed by the branch itself. -/
def SeqOf (cls : characterClass) (branch : Node) : Node :=
  Node.sequence
    [Node.peekFor [Node.classT (characterClass.goString cls) (some cls)], branch]

/-- One iteration of the rewrite loop over `(branch, intersects, class)`:
intersecting branches go to the back of `ordered`; a `Nil` branch's
guarded sequence goes to the back of `unordered`; a branch whose class is
longer than the running `max` goes to the back and raises `max`; every
other branch is pushed at the front.  The accumulator is
`(unordered, ordered, max)`. -/
def buildStep (acc : List Node × List Node × Nat)
    (b : Node × Bool × characterClass) : List Node × List Node × Nat :=
  if b.2.1 then (acc.1, acc.2.1 ++ [b.1], acc.2.2)
  else if isNilNode b.1 then (acc.1 ++ [SeqOf b.2.2 b.1], acc.2.1, acc.2.2)
  else if acc.2.2 < characterClass.len b.2.2 then
    (acc.1 ++ [SeqOf b.2.2 b.1], acc.2.1, characterClass.len b.2.2)
  else (SeqOf b.2.2 b.1 :: acc.1, acc.2.1, acc.2.2)

def buildUnordered (bs : List (Node × Bool × characterClass)) :
    List Node × List Node × Nat :=
  List.foldl buildStep ([], [], 0) bs

/-- The branches the loop appends at the back of the unordered list, in
encounter order: `Nil` branches when met, and branches that strictly
raise the running class-length maximum. -/
def tailPushed : List (Node × Bool × characterClass) → Nat → List Node
  | [], _ => []
  | b :: bs, mx =>
    if b.2.1 then tailPushed bs mx
    else if isNilNode b.1 then SeqOf b.2.2 b.1 :: tailPushed bs mx
    else if mx < characterClass.len b.2.2 then
      SeqOf b.2.2 b.1 :: tailPushed bs (characterClass.len b.2.2)
    else tailPushed bs mx

/-- The branches the loop pushes at the front, in encounter order. -/
def headPushed : List (Node × Bool × characterClass) → Nat → List Node
  | [], _ => []
  | b :: bs, mx =>
    if b.2.1 then headPushed bs mx
    else if isNilNode b.1 then headPushed bs mx
    else if mx < characterClass.len b.2.2 then
      headPushed bs (characterClass.len b.2.2)
    else SeqOf b.2.2 b.1 :: headPushed bs mx

/-- A guarded branch whose payload resolves to `Nil`. -/
def isNilBranch : Node → Bool
  | Node.sequence [_, b] => isNilNode b
  | _ => false

/-- The spec's ordering property, stated from its words: in the unordered
list, every `Nil`-resolving branch sits behind every other branch. -/
def specNilAtTail (l : List Node) : Prop :=
  ∀ i j (hi : i < l.length) (hj : j < l.length),
    isNilBranch (l.get ⟨i, hi⟩) = true →
    isNilBranch (l.get ⟨j, hj⟩) = false → j < i

theorem buildUnordered_decomp : ∀ (bs : List (Node × Bool × characterClass))
    (acc : List Node × List Node × Nat),
    (List.foldl buildStep acc bs).1
      = (headPushed bs acc.2.2).reverse ++ acc.1 ++ tailPushed bs acc.2.2 ∧
    (List.foldl buildStep acc bs).2.1
      = acc.2.1 ++ (bs.filter (fun b => b.2.1)).map (fun b => b.1) := by
  intro bs
  induction bs with
  | nil =>
    intro acc
    constructor
    · show acc.1 = List.reverse [] ++ acc.1 ++ []
      rw [List.reverse_nil, List.nil_append, List.append_nil]
    · show acc.2.1 = acc.2.1 ++ List.map _ (List.filter _ [])
      rw [List.filter_nil, List.map_nil, List.append_nil]
  | cons b bs ih =>
    intro acc
    rw [List.foldl_cons]
    by_cases hint : b.2.1 = true
    · have hstep : buildStep acc b = (acc.1, acc.2.1 ++ [b.1], acc.2.2) := by
        show (if b.2.1 = true then _ else _) = _
        rw [if_pos hint]
      rw [hstep]
      obtain ⟨ih1, ih2⟩ := ih (acc.1, acc.2.1 ++ [b.1], acc.2.2)
      rw [show headPushed (b :: bs) acc.2.2 = headPushed bs acc.2.2 from by
          show (if b.2.1 = true then _ else _) = _
          rw [if_pos hint],
        show tailPushed (b :: bs) acc.2.2 = tailPushed bs acc.2.2 from by
          show (if b.2.1 = true then _ else _) = _
          rw [if_pos hint],
        show List.filter (fun b => b.2.1) (b :: bs)
            = b :: List.filter (fun b => b.2.1) bs from
          List.filter_cons_of_pos hint,
        List.map_cons]
      constructor
      · rw [ih1]
      · rw [ih2]
        dsimp only
        rw [List.append_assoc]
        rfl
    · by_cases hnil : isNilNode b.1 = true
      · have hstep : buildStep acc b
            = (acc.1 ++ [SeqOf b.2.2 b.1], acc.2.1, acc.2.2) := by
          show (if b.2.1 = true then _ else _) = _
          rw [if_neg hint, if_pos hnil]
        rw [hstep]
        obtain ⟨ih1, ih2⟩ := ih (acc.1 ++ [SeqOf b.2.2 b.1], acc.2.1, acc.2.2)
        rw [show headPushed (b :: bs) acc.2.2 = headPushed bs acc.2.2 from by
            show (if b.2.1 = true then _ else _) = _
            rw [if_neg hint, if_pos hnil],
          show tailPushed (b :: bs) acc.2.2
              = SeqOf b.2.2 b.1 :: tailPushed bs acc.2.2 from by
            show (if b.2.1 = true then _ else _) = _
            rw [if_neg hint, if_pos hnil],
          show List.filter (fun b => b.2.1) (b :: bs)
              = List.filter (fun b => b.2.1) bs from
            List.filter_cons_of_neg (by simpa using hint)]
        constructor
        · rw [ih1]
          dsimp only
          simp only [List.append_assoc]
          rfl
        · exact ih2
      · by_cases hlt : acc.2.2 < characterClass.len b.2.2
        · have hstep : buildStep acc b
              = (acc.1 ++ [SeqOf b.2.2 b.1], acc.2.1,
                 characterClass.len b.2.2) := by
            show (if b.2.1 = true then _ else _) = _
            rw [if_neg hint, if_neg hnil, if_pos hlt]
          rw [hstep]
          obtain ⟨ih1, ih2⟩ := ih
            (acc.1 ++ [SeqOf b.2.2 b.1], acc.2.1, characterClass.len b.2.2)
          rw [show headPushed (b :: bs) acc.2.2
              = headPushed bs (characterClass.len b.2.2) from by
              show (if b.2.1 = true then _ else _) = _
              rw [if_neg hint, if_neg hnil, if_pos hlt],
            show tailPushed (b :: bs) acc.2.2
                = SeqOf b.2.2 b.1 :: tailPushed bs (characterClass.len b.2.2)
              from by
              show (if b.2.1 = true then _ else _) = _
              rw [if_neg hint, if_neg hnil, if_pos hlt],
            show List.filter (fun b => b.2.1) (b :: bs)
                = List.filter (fun b => b.2.1) bs from
              List.filter_cons_of_neg (by simpa using hint)]
          constructor
          · rw [ih1]
            dsimp only
            simp only [List.append_assoc]
            rfl
          · exact ih2
        · have hstep : buildStep acc b
              = (SeqOf b.2.2 b.1 :: acc.1, acc.2.1, acc.2.2) := by
            show (if b.2.1 = true then _ else _) = _
            rw [if_neg hint, if_neg hnil, if_neg hlt]
          rw [hstep]
          obtain ⟨ih1, ih2⟩ := ih (SeqOf b.2.2 b.1 :: acc.1, acc.2.1, acc.2.2)
          rw [show headPushed (b :: bs) acc.2.2
              = SeqOf b.2.2 b.1 :: headPushed bs acc.2.2 from by
              show (if b.2.1 = true then _ else _) = _
              rw [if_neg hint, if_neg hnil, if_neg hlt],
            show tailPushed (b :: bs) acc.2.2 = tailPushed bs acc.2.2 from by
              show (if b.2.1 = true then _ else _) = _
              rw [if_neg hint, if_neg hnil, if_neg hlt],
            show List.filter (fun b => b.2.1) (b :: bs)
                = List.filter (fun b => b.2.1) bs from
              List.filter_cons_of_neg (by simpa using hint)]
          constructor
          · rw [ih1]
            dsimp only
            rw [List.reverse_cons]
            simp only [List.append_assoc]
            rfl
          · exact ih2

/-- C6 (amended): the rewrite loop sends every intersecting branch to the
`ordered` list in encounter order, and builds the unordered list as the
front-pushed branches in reverse encounter order followed by the
back-pushed branches in encounter order — where a branch is back-pushed
when it resolves to `Nil` or strictly raises the running class-length
maximum, and front-pushed otherwise.  (`Nil` branches are pushed at the
back when encountered, so later back-pushed branches land behind them:
the spec's `Nil is pushed last / sits at the tail` is not what the loop
does.) -/
theorem C6_push_discipline (bs : List (Node × Bool × characterClass)) :
    (buildUnordered bs).1 = (headPushed bs 0).reverse ++ tailPushed bs 0 ∧
    (buildUnordered bs).2.1
      = (bs.filter (fun b => b.2.1)).map (fun b => b.1) := by
  obtain ⟨h1, h2⟩ := buildUnordered_decomp bs ([], [], 0)
  constructor
  · rw [show buildUnordered bs = List.foldl buildStep ([], [], 0) bs from rfl,
      h1]
    rw [List.append_nil]
  · rw [show buildUnordered bs = List.foldl buildStep ([], [], 0) bs from rfl,
      h2]
    rfl


/-! ## The switch optimization (`optimizeAlternates`, lines 676–857) and
the recognizers it emits -/

/-- The `class` result of `optimizeAlternates`: Go's `*characterClass`
can be nil, the shared `emptyString` sentinel (compared by pointer in the
`TypeAlternate` loop), or an actual bitmap. -/

inductive OptClass where
  | nilC
  | emptyS
  | cls (c : characterClass)

def OptClass.bitmap : OptClass → characterClass
  | OptClass.nilC => characterClass.mk
  | OptClass.emptyS => characterClass.mk
  | OptClass.cls c => c

def OptClass.isNil : OptClass → Bool
  | OptClass.nilC => true
  | _ => false

abbrev Flags := Bool × Bool × Bool × OptClass

def lookupN {α : Type} (m : List (Nat × α)) (k : Nat) : Option α :=
  (m.find? (fun p => p.1 == k)).map (fun p => p.2)

def setN {α : Type} (m : List (Nat × α)) (k : Nat) (v : α) : List (Nat × α) :=
  if (m.find? (fun p => p.1 == k)).isSome
  then m.map (fun p => if p.1 == k then (k, v) else p)
  else m ++ [(k, v)]

def lookupC (m : List (List Nat × characterClass)) (s : List Nat) :
    Option characterClass :=
  (m.find? (fun p => p.1 == s)).map (fun p => p.2)

structure OptSt where
  cache : List (Nat × Flags)
  rules : List (String × Node)

def firstByte (s : List Nat) : Nat :=
  match s with
  | 92 :: b :: _ => decodeEscape b
  | b :: _ => b
  | [] => 0

def overlaps (a b : characterClass) : Bool :=
  (List.range 32).any (fun i => (a.getD i 0 &&& b.getD i 0) != 0)

def markInter : List OptClass → List Bool
  | [] => []
  | [_] => [false]
  | a :: rest =>
    (rest.any (fun b => overlaps a.bitmap b.bitmap)) :: markInter rest

def seqClass (ps : List (Bool × OptClass)) : characterClass :=
  ps.reverse.foldl (fun acc pc =>
    if pc.2.isNil then acc
    else if pc.1 then characterClass.intersection acc pc.2.bitmap
    else characterClass.union acc pc.2.bitmap) characterClass.mk

structure SeqAcc where
  consumed : Bool
  eofA : Bool
  peekA : Bool
  processed : List (Bool × OptClass)
  elems : List Node
  st : OptSt

def optAlt (t : Tree) : Nat → Node → OptSt → Flags × Node × OptSt
  | 0, node, st => ((false, false, false, OptClass.nilC), node, st)
  | fuel + 1, node, st =>
    match node with
    | Node.ruleN nm i expr =>
      if t.switchExcl.contains nm then
        ((false, false, false, OptClass.nilC), node, st)
      else
        match lookupN st.cache i with
        | some fl => (fl, node, st)
        | none =>
          let st1 : OptSt := ⟨setN st.cache i (false, false, false, OptClass.nilC), st.rules⟩
          let r := optAlt t fuel (getExpression expr) st1
          let newRule := Node.ruleN nm i (some r.2.1)
          (r.1, newRule, ⟨setN r.2.2.cache i r.1, setS r.2.2.rules nm newRule⟩)
    | Node.nameN nm =>
      match lookupS st.rules nm with
      | some r =>
        let q := optAlt t fuel r st
        (q.1, node, q.2.2)
      | none => ((false, false, false, OptClass.nilC), node, st)
    | Node.dot =>
      ((true, false, false, OptClass.cls (List.replicate 32 255)), node, st)
    | Node.character s =>
      if s.isEmpty then ((true, false, false, OptClass.emptyS), node, st)
      else ((true, false, false,
        OptClass.cls (characterClass.mk.add (firstByte s))), node, st)
    | Node.stringT s =>
      if s.isEmpty then ((true, false, false, OptClass.emptyS), node, st)
      else ((true, false, false,
        OptClass.cls (characterClass.mk.add (firstByte s))), node, st)
    | Node.classT s _ =>
      match lookupC t.classes s with
      | some c => ((true, false, false, OptClass.cls c), node, st)
      | none => ((true, false, false, OptClass.nilC), node, st)
    | Node.alternate es =>
      let scan := es.foldl (fun (acc : List (Flags × Node) × OptSt) e =>
          let q := optAlt t fuel e acc.2
          (acc.1 ++ [(q.1, q.2.1)], q.2.2)) ([], st)
      let results := scan.1
      let elems := results.map (fun r => r.2)
      let dropped := match results.getLast? with
        | some r => (match r.1.2.2.2 with | OptClass.emptyS => true | _ => false)
        | none => false
      let included := if dropped then results.dropLast else results
      let consumes := included.all (fun r => r.1.1)
      let eof := included.any (fun r => r.1.2.1)
      let peek := included.all (fun r => r.1.2.2.1)
      let accCls := included.foldl (fun a r =>
          if r.1.2.2.2.isNil then a
          else characterClass.union a r.1.2.2.2.bitmap) characterClass.mk
      if eof then
        ((consumes, eof, peek, OptClass.cls accCls), Node.alternate elems, scan.2)
      else
        let props := included.map (fun r => r.1.2.2.2)
        let inter := markInter props
        if 2 + inter.count true < props.length then
          let bs := elems.zip (inter.zip (props.map OptClass.bitmap))
          let u := buildUnordered bs
          let node' := if u.2.1.length = 0 then Node.unorderedAlternate u.1
            else Node.alternate (u.2.1 ++ [Node.unorderedAlternate u.1])
          ((consumes, eof, peek, OptClass.cls accCls), node', scan.2)
        else
          ((consumes, eof, peek, OptClass.cls accCls), Node.alternate elems, scan.2)
    | Node.sequence es =>
      let scan := es.foldl (fun (acc : SeqAcc) e =>
          let q := optAlt t fuel e acc.st
          if acc.consumed then
            ⟨true, acc.eofA, acc.peekA, acc.processed,
             acc.elems ++ [q.2.1], q.2.2⟩
          else
            ⟨q.1.1, acc.eofA || q.1.2.1, acc.peekA || q.1.2.2.1,
             acc.processed ++ [(q.1.2.2.1, q.1.2.2.2)],
             acc.elems ++ [q.2.1], q.2.2⟩)
        (⟨false, false, false, [], [], st⟩ : SeqAcc)
      ((scan.consumed, !scan.consumed && scan.eofA, !scan.consumed && scan.peekA,
        OptClass.cls (seqClass scan.processed)),
       Node.sequence scan.elems, scan.st)
    | Node.peekNot es =>
      let q := optAlt t fuel (es.headD Node.nilT) st
      ((false, !q.1.2.1, true,
        OptClass.cls (characterClass.complement q.1.2.2.2.bitmap)),
       Node.peekNot [q.2.1], q.2.2)
    | Node.peekFor es =>
      let q := optAlt t fuel (es.headD Node.nilT) st
      ((false, q.1.2.1, true, q.1.2.2.2), Node.peekFor [q.2.1], q.2.2)
    | Node.query es =>
      let q := optAlt t fuel (es.headD Node.nilT) st
      ((false, q.1.2.1, false, q.1.2.2.2), Node.query [q.2.1], q.2.2)
    | Node.star es =>
      let q := optAlt t fuel (es.headD Node.nilT) st
      ((false, q.1.2.1, false, q.1.2.2.2), Node.star [q.2.1], q.2.2)
    | Node.plus es =>
      let q := optAlt t fuel (es.headD Node.nilT) st
      (q.1, Node.plus [q.2.1], q.2.2)
    | Node.actionN s i =>
      ((false, false, false, OptClass.cls characterClass.mk),
       Node.actionN s i, st)
    | Node.nilT =>
      ((false, false, false, OptClass.cls characterClass.mk), node, st)
    | _ => ((false, false, false, OptClass.nilC), node, st)

def isRuleNode : Node → Bool
  | Node.ruleN _ _ _ => true
  | _ => false

def optimizeTree (t : Tree) (fuel : Nat) : Tree :=
  if t.switchFlag then
    match t.listL.find? isRuleNode with
    | some r =>
      let q := optAlt t fuel r ⟨[], t.rules⟩
      Tree.mk q.2.2.rules t.rulesCount t.ruleId t.listL t.classes t.defines
        t.switchExcl t.inline t.switchFlag
    | none => t
  else t

/-! ### The emitted recognizers, as an interpreter over the tree.

`TypeAlternate` emits branch-by-branch trial with position restore;
`TypeUnorderedAlternate` (lines 1345–1403) emits
`if position == len(p.Buffer) goto fail` followed by a `switch` on
`p.Buffer[position]` whose cases are the guard classes of all branches
but the last, the last branch being the `default` arm. -/

def uaClass : Node → Option characterClass
  | Node.sequence (Node.peekFor [Node.classT _ (some cls)] :: _) => some cls
  | _ => none

def uaPayload : Node → Node
  | Node.sequence [_, payload] => payload
  | n => n

def findCase (es : List Node) (b : Nat) : Option Node :=
  (es.dropLast.find? (fun n => match uaClass n with
    | some cls => cls.has b
    | none => false)).map uaPayload

def iterate (step : Nat → Option Nat) : Nat → Nat → Option Nat
  | 0, _ => none
  | fuel + 1, pos =>
    match step pos with
    | some pp => iterate step fuel pp
    | none => some pos

def matchBytes (input : List Nat) : List Nat → Nat → Option Nat
  | [], pos => some pos
  | b :: bs, pos =>
    if pos < input.length ∧ input.getD pos 0 = b then
      matchBytes input bs (pos + 1)
    else none

def runNode (rules : List (String × Node)) (input : List Nat) :
    Nat → Node → Nat → Option Nat
  | 0, _, _ => none
  | fuel + 1, node, pos =>
    match node with
    | Node.character s =>
      if pos < input.length ∧ input.getD pos 0 = firstByte s then some (pos + 1)
      else none
    | Node.stringT s => matchBytes input s pos
    | Node.classT _ (some cls) =>
      if pos < input.length ∧ cls.has (input.getD pos 0) = true then some (pos + 1)
      else none
    | Node.classT _ none => none
    | Node.dot => if pos < input.length then some (pos + 1) else none
    | Node.nameN nm =>
      match lookupS rules nm with
      | some r => runNode rules input fuel r pos
      | none => none
    | Node.ruleN _ _ e => runNode rules input fuel (getExpression e) pos
    | Node.sequence es =>
      es.foldl (fun acc e =>
        match acc with
        | some p => runNode rules input fuel e p
        | none => none) (some pos)
    | Node.alternate es =>
      es.foldl (fun acc e =>
        match acc with
        | some p => some p
        | none => runNode rules input fuel e pos) none
    | Node.unorderedAlternate es =>
      if pos = input.length then none
      else
        match findCase es (input.getD pos 0) with
        | some payload => runNode rules input fuel payload pos
        | none =>
          runNode rules input fuel (uaPayload (es.getLast?.getD Node.nilT)) pos
    | Node.star es =>
      iterate (fun p => runNode rules input fuel (es.headD Node.nilT) p)
        (fuel + 1) pos
    | Node.plus es =>
      match runNode rules input fuel (es.headD Node.nilT) pos with
      | some pp =>
        iterate (fun p => runNode rules input fuel (es.headD Node.nilT) p)
          (fuel + 1) pp
      | none => none
    | Node.query es =>
      match runNode rules input fuel (es.headD Node.nilT) pos with
      | some pp => some pp
      | none => some pos
    | Node.peekFor es =>
      match runNode rules input fuel (es.headD Node.nilT) pos with
      | some _ => some pos
      | none => none
    | Node.peekNot es =>
      match runNode rules input fuel (es.headD Node.nilT) pos with
      | some _ => none
      | none => some pos
    | Node.actionN _ _ => some pos
    | Node.beginT => some pos
    | Node.endT => some pos
    | Node.commitT => some pos
    | Node.nilT => some pos
    | Node.predicate _ => none

def accepts (t : Tree) (input : List Nat) (fuel : Nat) : Bool :=
  match t.listL.find? isRuleNode with
  | some (Node.ruleN nm _ _) =>
    (runNode t.rules input fuel (Node.nameN nm) 0).isSome
  | _ => false

def switchExample : Tree :=
  Tree.mk [("R", Node.ruleN "R" 0 (some (Node.alternate
      [Node.star [Node.character [98]],
       Node.character [97],
       Node.classT [99, 100] (some ((characterClass.mk.add 99).add 100))])))]
    [("R", 1)] 1
    [Node.ruleN "R" 0 (some (Node.alternate
      [Node.star [Node.character [98]],
       Node.character [97],
       Node.classT [99, 100] (some ((characterClass.mk.add 99).add 100))]))]
    [([99, 100], (characterClass.mk.add 99).add 100)]
    [] [] false true

/-- A grammar whose single rule is the three-branch alternate
`Nil / 'x' / [yz]`: the branch classes (empty, `\x7bx\x7d`, `\x7by,z\x7d`) are
pairwise disjoint, so `intersections = 2 < 3` and the rewrite fires. -/
def nilExample : Tree :=
  Tree.mk [("R", Node.ruleN "R" 0 (some (Node.alternate
      [Node.nilT,
       Node.character [120],
       Node.classT [121, 122] (some ((characterClass.mk.add 121).add 122))])))]
    [("R", 1)] 1
    [Node.ruleN "R" 0 (some (Node.alternate
      [Node.nilT,
       Node.character [120],
       Node.classT [121, 122] (some ((characterClass.mk.add 121).add 122))]))]
    [([121, 122], (characterClass.mk.add 121).add 122)]
    [] [] false true

/-- C2: the switch optimization changes acceptance.  For the grammar
`R <- 'b'* / 'a' / [cd]` the three branch classes are disjoint, so with
`-switch` the alternate is rewritten into an `UnorderedAlternate` (third
conjunct: the rule is rewritten exactly to the guarded branches
`'a'`, `'b'*`, `[cd]` with `[cd]` as the switch default).  On input
`"z"` the original recognizer accepts (the `'b'*` branch matches the
empty prefix) while the optimized recognizer dispatches on `'z'`, falls
into the `[cd]` default case and rejects; so the two recognizers do not
accept the same inputs (the same happens at end of input, where the
emitted EOF check jumps straight to failure). -/
theorem C2_switch_divergence :
    accepts switchExample [122] 10 = true ∧
    accepts (optimizeTree switchExample 10) [122] 10 = false ∧
    lookupS (optimizeTree switchExample 10).rules "R"
      = some (Node.ruleN "R" 0 (some (Node.unorderedAlternate
          [SeqOf (characterClass.mk.add 97) (Node.character [97]),
           SeqOf (characterClass.mk.add 98) (Node.star [Node.character [98]]),
           SeqOf ((characterClass.mk.add 99).add 100)
             (Node.classT [99, 100] (some ((characterClass.mk.add 99).add 100)))]))) :=
  ⟨rfl, rfl, rfl⟩

/-- C6 counterexample: optimizing the three-branch alternate
`Nil / 'x' / [yz]` (pairwise disjoint classes, so the rewrite to an
`UnorderedAlternate` does fire) back-pushes the `Nil` branch first, then
back-pushes `'x'` (class length 1 > max 0) and `[yz]` (2 > 1) behind it:
the produced unordered list holds the `Nil`-guarded branch at its head,
not at its tail. -/
theorem C6_counterexample :
    lookupS (optimizeTree nilExample 10).rules "R"
      = some (Node.ruleN "R" 0 (some (Node.unorderedAlternate
          [SeqOf characterClass.mk Node.nilT,
           SeqOf (characterClass.mk.add 120) (Node.character [120]),
           SeqOf ((characterClass.mk.add 121).add 122)
             (Node.classT [121, 122] (some ((characterClass.mk.add 121).add 122)))]))) ∧
    ¬ specNilAtTail
        [SeqOf characterClass.mk Node.nilT,
         SeqOf (characterClass.mk.add 120) (Node.character [120]),
         SeqOf ((characterClass.mk.add 121).add 122)
           (Node.classT [121, 122] (some ((characterClass.mk.add 121).add 122)))] := by
  refine ⟨rfl, ?_⟩
  intro h
  have h01 := h 0 1 (by decide) (by decide) rfl rfl
  omega

end Peg
